import Mathlib

/-!
Verification development for the OpenQASM 2.0 <-> circuit-IR converter
described by the repository's specification (the notebook documents the
API surface `export_open_qasm` / `import_open_qasm`; the converter itself
is modelled here from the specification, with the notebook's recorded
cell outputs used as ground truth where they exercise the converter).

Numeric parameters are modelled exactly: decimal literals are kept as
mantissa/exponent pairs and the constant pi symbolically, instead of
IEEE-754 doubles.  Evaluation of a parameter expression at a variable
binding is substitution producing a closed expression tree.
-/

/-- Modelled from the spec: `SymbolicExpression`, "a tree over numeric
literals, the constant pi, named free variables, and the four arithmetic
operators plus unary negation".  A literal `num m e` denotes the decimal
number `m / 10 ^ e`. -/
inductive AExpr where
  | num (m : Nat) (e : Nat)
  | pi
  | var (s : String)
  | neg (a : AExpr)
  | add (a b : AExpr)
  | sub (a b : AExpr)
  | mul (a b : AExpr)
  | div (a b : AExpr)
deriving DecidableEq, Repr

/-- The free-variable references of a parameter expression. -/
def freeVarsE : AExpr → List String
  | .num _ _ => []
  | .pi => []
  | .var s => [s]
  | .neg a => freeVarsE a
  | .add a b => freeVarsE a ++ freeVarsE b
  | .sub a b => freeVarsE a ++ freeVarsE b
  | .mul a b => freeVarsE a ++ freeVarsE b
  | .div a b => freeVarsE a ++ freeVarsE b

/-- A variable-binding mapping, from variable name to (numeric) expression. -/
def bindLookup (b : List (String × AExpr)) (s : String) : Option AExpr :=
  match b with
  | [] => none
  | (n, v) :: rest => if n = s then some v else bindLookup rest s

/-- Modelled from the spec: evaluation of a `SymbolicExpression` at a
variable binding, exact-symbolic version: every bound free variable is
replaced by its binding's value. -/
def substE (b : List (String × AExpr)) : AExpr → AExpr
  | .num m e => .num m e
  | .pi => .pi
  | .var s => match bindLookup b s with
      | some v => v
      | none => .var s
  | .neg a => .neg (substE b a)
  | .add a b' => .add (substE b a) (substE b b')
  | .sub a b' => .sub (substE b a) (substE b b')
  | .mul a b' => .mul (substE b a) (substE b b')
  | .div a b' => .div (substE b a) (substE b b')

/-- Whether the expression contains a division whose denominator is a zero
literal (the spec's `DivisionByZeroError` condition: "Division by a zero
literal"; division by other vanishing denominators is not checked). -/
def hasZeroDivLit : AExpr → Bool
  | .num _ _ => false
  | .pi => false
  | .var _ => false
  | .neg a => hasZeroDivLit a
  | .add a b => hasZeroDivLit a || hasZeroDivLit b
  | .sub a b => hasZeroDivLit a || hasZeroDivLit b
  | .mul a b => hasZeroDivLit a || hasZeroDivLit b
  | .div a b => hasZeroDivLit a || hasZeroDivLit b ||
      (match b with | .num 0 _ => true | _ => false)

/-- Modelled from the spec: the IR gate kinds of the Gate Semantics Table,
"identity-free single-qubit gates (X, Y, Z, H, S, T and their inverses),
parameterized single-qubit rotations (Rx, Ry, Rz)"; controlled forms are
represented by a gate operation's control list. -/
inductive GateKind where
  | X | Y | Z | H | S | Sdg | T | Tdg | Rx | Ry | Rz
deriving DecidableEq, Repr

/-- Whether a gate kind carries exactly one angle parameter. -/
def kindHasParam : GateKind → Bool
  | .Rx => true
  | .Ry => true
  | .Rz => true
  | _ => false

/-- Modelled from the spec: `GateOperation`, "a discriminated variant over
the supported gate kinds ... Attributes: kind, ordered list of operand
qubit global indices (control(s) first, then target), and for
parameterized kinds a parameter value". -/
inductive Operation where
  | gate (k : GateKind) (controls : List Nat) (target : Nat) (param : Option AExpr)
  | measure (q : Nat) (c : Nat)
deriving DecidableEq, Repr

/-- Modelled from the spec: `Circuit IR`, "an ordered sequence of
GateOperation plus the resolved total qubit count and classical-bit
count". -/
structure CircuitIR where
  ops : List Operation
  n_qubits : Nat
  n_cbits : Nat
deriving DecidableEq, Repr

/-- Well-formedness of a single IR operation over `n` qubits, following
the spec's invariants: "every operand index is within [0, qubit_count)"
(read literally, this also bounds a measurement's classical operand by the
qubit count), "operand count and parameter presence must match the kind's
arity exactly", and controlled forms carry at most two controls (the `c` /
`cc` mnemonic prefixes of the Gate Semantics Table). -/
def Operation.wfb (n : Nat) : Operation → Bool
  | .gate k cs t p =>
      decide (cs.length ≤ 2) && cs.all (fun i => decide (i < n)) &&
      decide (t < n) && (p.isSome == kindHasParam k)
  | .measure q c => decide (q < n) && decide (c < n)

/-- Well-formedness of a circuit IR (spec section 3 invariants). -/
def CircuitIR.wfb (c : CircuitIR) : Bool :=
  c.ops.all (Operation.wfb c.n_qubits)

/-- The angle `-pi/2` as an exact expression. -/
def negHalfPi : AExpr := .neg (.div .pi (.num 2 0))

/-- The angle `pi/2` as an exact expression. -/
def halfPi : AExpr := .div .pi (.num 2 0)

/-- Whether an operation is a Y-basis gate kind (`Y`, `Ry`, and their
controlled variants `CY`, `CRy`, ...). -/
def isYKind : Operation → Bool
  | .gate .Y _ _ _ => true
  | .gate .Ry _ _ _ => true
  | _ => false

/-- Modelled from the spec: the per-operation rewrite of the Decomposition
Engine — `Y → Rz(-pi/2), X, Rz(pi/2)` and `Ry(θ) → Rz(-pi/2), Rx(θ),
Rz(pi/2)` on the same qubit, controlled forms rewriting the target only
with the control operand(s) attached to every emitted sub-gate; all other
operations are kept unchanged.  The single-qubit cases match the
notebook's recorded `zx_calculus=True` export output. -/
def decomposeOp : Operation → List Operation
  | .gate .Y cs t _ =>
      [.gate .Rz cs t (some negHalfPi), .gate .X cs t none,
       .gate .Rz cs t (some halfPi)]
  | .gate .Ry cs t p =>
      [.gate .Rz cs t (some negHalfPi), .gate .Rx cs t p,
       .gate .Rz cs t (some halfPi)]
  | op => [op]

/-- The decomposition pass over an operation sequence. -/
def decomposeOps (l : List Operation) : List Operation :=
  match l with
  | [] => []
  | op :: rest => decomposeOp op ++ decomposeOps rest

/-- Modelled from the spec: `decompose_remove_y(ir) -> CircuitIR`, the
pure rewrite pass run at export time when the no-Y / `zx_calculus` flag is
set. -/
def decompose_remove_y (c : CircuitIR) : CircuitIR :=
  ⟨decomposeOps c.ops, c.n_qubits, c.n_cbits⟩

/-- Whether a circuit IR is free of Y-basis gate kinds. -/
def noYKinds (c : CircuitIR) : Bool :=
  c.ops.all (fun op => !(isYKind op))

theorem decomposeOps_append (l l' : List Operation) :
    decomposeOps (l ++ l') = decomposeOps l ++ decomposeOps l' := by
  induction l with
  | nil => rfl
  | cons op rest ih => simp [decomposeOps, ih]

theorem decomposeOp_of_not_y {op : Operation} (h : isYKind op = false) :
    decomposeOp op = [op] := by
  cases op with
  | gate k cs t p => cases k <;> simp_all [isYKind, decomposeOp]
  | measure q c => rfl

theorem decomposeOp_y_free (op : Operation) :
    (decomposeOp op).all (fun o => !(isYKind o)) = true := by
  cases op with
  | gate k cs t p => cases k <;> simp [decomposeOp, isYKind]
  | measure q c => simp [decomposeOp, isYKind]

theorem decomposeOps_y_free (l : List Operation) :
    (decomposeOps l).all (fun o => !(isYKind o)) = true := by
  induction l with
  | nil => rfl
  | cons op rest ih =>
      simp only [decomposeOps, List.all_append, Bool.and_eq_true]
      exact ⟨decomposeOp_y_free op, ih⟩

theorem decomposeOps_of_y_free {l : List Operation}
    (h : l.all (fun o => !(isYKind o)) = true) : decomposeOps l = l := by
  induction l with
  | nil => rfl
  | cons op rest ih =>
      simp only [List.all_cons, Bool.and_eq_true, Bool.not_eq_true'] at h
      simp [decomposeOps, decomposeOp_of_not_y h.1, ih h.2]

/-- C2: the decomposition pass (run when exporting with the no-Y /
`zx_calculus` flag) replaces every single-qubit `Y` by
`Rz(-pi/2), X, Rz(pi/2)` on the same qubit in that order, every `Ry(θ)` by
`Rz(-pi/2), Rx(θ), Rz(pi/2)` on the same qubit in that order, and keeps
every non-Y-kind operation unchanged in its original relative position. -/
theorem claim_c2_decompose_y_rewrite (pre post : List Operation)
    (t nq nc : Nat) (th : AExpr) (op : Operation)
    (hop : isYKind op = false) :
    ((decompose_remove_y ⟨pre ++ .gate .Y [] t none :: post, nq, nc⟩).ops =
      decomposeOps pre ++
        ([.gate .Rz [] t (some negHalfPi), .gate .X [] t none,
          .gate .Rz [] t (some halfPi)] ++ decomposeOps post)) ∧
    ((decompose_remove_y ⟨pre ++ .gate .Ry [] t (some th) :: post, nq, nc⟩).ops =
      decomposeOps pre ++
        ([.gate .Rz [] t (some negHalfPi), .gate .Rx [] t (some th),
          .gate .Rz [] t (some halfPi)] ++ decomposeOps post)) ∧
    ((decompose_remove_y ⟨pre ++ op :: post, nq, nc⟩).ops =
      decomposeOps pre ++ (op :: decomposeOps post)) := by
  refine ⟨?_, ?_, ?_⟩
  · simp [decompose_remove_y, decomposeOps_append, decomposeOps, decomposeOp]
  · simp [decompose_remove_y, decomposeOps_append, decomposeOps, decomposeOp]
  · simp [decompose_remove_y, decomposeOps_append, decomposeOps,
      decomposeOp_of_not_y hop]

/-- Witness for C2 at a concrete circuit: a controlled-X between two `H`
gates is not a Y-kind and survives decomposition unchanged. -/
theorem claim_c2_decompose_y_rewrite_witness :
    isYKind (.gate .X [0] 1 none) = false ∧
    (decompose_remove_y ⟨[.gate .H [] 0 none, .gate .X [0] 1 none,
        .gate .H [] 0 none], 2, 0⟩).ops =
      decomposeOps [.gate .H [] 0 none] ++
        (.gate .X [0] 1 none :: decomposeOps [.gate .H [] 0 none]) :=
  ⟨by decide,
    (claim_c2_decompose_y_rewrite [.gate .H [] 0 none] [.gate .H [] 0 none]
      0 2 0 .pi (.gate .X [0] 1 none) (by decide)).2.2⟩

/-- C7: the decomposition pass is idempotent — one pass leaves no Y-kind
gate, the pass is the identity on an IR already free of Y-kind gates, and
applying it twice equals applying it once. -/
theorem claim_c7_decompose_idempotent (c : CircuitIR) :
    noYKinds (decompose_remove_y c) = true ∧
    (noYKinds c = true → decompose_remove_y c = c) ∧
    decompose_remove_y (decompose_remove_y c) = decompose_remove_y c := by
  refine ⟨decomposeOps_y_free c.ops, ?_, ?_⟩
  · intro h
    simp only [noYKinds] at h
    simp [decompose_remove_y, decomposeOps_of_y_free h]
  · simp [decompose_remove_y, decomposeOps_of_y_free (decomposeOps_y_free c.ops)]

/-- Witness for C7 at a concrete circuit containing a `Y` and an `Ry`. -/
theorem claim_c7_decompose_idempotent_witness :
    noYKinds (decompose_remove_y ⟨[.gate .Y [] 0 none,
        .gate .Ry [] 2 (some .pi), .gate .H [] 1 none], 3, 0⟩) = true ∧
    noYKinds ⟨[.gate .H [] 1 none], 3, 0⟩ = true ∧
    decompose_remove_y ⟨[.gate .H [] 1 none], 3, 0⟩ = ⟨[.gate .H [] 1 none], 3, 0⟩ ∧
    decompose_remove_y (decompose_remove_y ⟨[.gate .Y [] 0 none,
        .gate .Ry [] 2 (some .pi), .gate .H [] 1 none], 3, 0⟩) =
      decompose_remove_y ⟨[.gate .Y [] 0 none,
        .gate .Ry [] 2 (some .pi), .gate .H [] 1 none], 3, 0⟩ :=
  ⟨(claim_c7_decompose_idempotent _).1,
   by decide,
   (claim_c7_decompose_idempotent _).2.1 (by decide),
   (claim_c7_decompose_idempotent _).2.2⟩

/-- C8: for controlled Y-kind gates (`CY`, `CRy(θ)`, and their
multi-controlled forms) the decomposition rewrites the target operand only
and emits every sub-gate — the central rotation and both flanking `Rz`
phase rotations — as a controlled gate carrying the original control
operand(s) unchanged. -/
theorem claim_c8_decompose_controlled (pre post : List Operation)
    (cs : List Nat) (t nq nc : Nat) (th : AExpr) (hcs : cs ≠ []) :
    ((decompose_remove_y ⟨pre ++ .gate .Y cs t none :: post, nq, nc⟩).ops =
      decomposeOps pre ++
        ([.gate .Rz cs t (some negHalfPi), .gate .X cs t none,
          .gate .Rz cs t (some halfPi)] ++ decomposeOps post)) ∧
    ((decompose_remove_y ⟨pre ++ .gate .Ry cs t (some th) :: post, nq, nc⟩).ops =
      decomposeOps pre ++
        ([.gate .Rz cs t (some negHalfPi), .gate .Rx cs t (some th),
          .gate .Rz cs t (some halfPi)] ++ decomposeOps post)) := by
  constructor <;>
    simp [decompose_remove_y, decomposeOps_append, decomposeOps, decomposeOp]

/-- Witness for C8: decomposition of a singly controlled `CY` and `CRy`. -/
theorem claim_c8_decompose_controlled_witness :
    ([0] : List Nat) ≠ [] ∧
    (decompose_remove_y ⟨[.gate .Y [0] 1 none], 2, 0⟩).ops =
      decomposeOps [] ++
        ([.gate .Rz [0] 1 (some negHalfPi), .gate .X [0] 1 none,
          .gate .Rz [0] 1 (some halfPi)] ++ decomposeOps []) :=
  ⟨by decide, (claim_c8_decompose_controlled [] [] [0] 1 2 0 .pi (by decide)).1⟩

/-- The decimal digit characters. -/
def digitChar : Nat → Char
  | 0 => '0' | 1 => '1' | 2 => '2' | 3 => '3' | 4 => '4'
  | 5 => '5' | 6 => '6' | 7 => '7' | 8 => '8' | _ => '9'

/-- Fuel-structured decimal printing helper (most significant digit
first); the fuel bounds the recursion depth and `natChars` always supplies
enough. -/
def natCharsAux : Nat → Nat → List Char
  | 0, _ => []
  | f + 1, n => if n = 0 then [] else natCharsAux f (n / 10) ++ [digitChar (n % 10)]

/-- Decimal representation of a natural number, most significant digit
first. -/
def natChars (n : Nat) : List Char :=
  if n = 0 then ['0'] else natCharsAux (n + 1) n

/-- The numeric value of a decimal digit character. -/
def charVal (c : Char) : Nat := c.toNat - 48

/-- Whether a character is a decimal digit. -/
def isDigitC (c : Char) : Bool := 48 ≤ c.toNat && c.toNat ≤ 57

/-- The number denoted by a big-endian digit-character string. -/
def digitsVal (cs : List Char) : Nat :=
  cs.foldl (fun a c => 10 * a + charVal c) 0

theorem natCharsAux_eq (f : Nat) : ∀ n, n < f →
    natCharsAux f n = ((Nat.digits 10 n).map digitChar).reverse := by
  induction f with
  | zero => intro n h; omega
  | succ f ih =>
      intro n h
      by_cases h0 : n = 0
      · subst h0; simp [natCharsAux]
      · rw [natCharsAux, if_neg h0, Nat.digits_def' (by norm_num) (Nat.pos_of_ne_zero h0)]
        have hd : n / 10 < f := by
          have : n / 10 < n := Nat.div_lt_self (Nat.pos_of_ne_zero h0) (by norm_num)
          omega
        simp [ih _ hd]

theorem charVal_digitChar {d : Nat} (h : d < 10) : charVal (digitChar d) = d := by
  interval_cases d <;> rfl

theorem isDigitC_digitChar {d : Nat} (h : d < 10) : isDigitC (digitChar d) = true := by
  interval_cases d <;> rfl

theorem foldl_digitChars (l : List Nat) (h : ∀ d ∈ l, d < 10) : ∀ a : Nat,
    ((l.map digitChar).reverse).foldl (fun x c => 10 * x + charVal c) a =
      a * 10 ^ l.length + Nat.ofDigits 10 l := by
  induction l with
  | nil => intro a; simp
  | cons d rest ih =>
      intro a
      have hd : d < 10 := h d (by simp)
      have hr : ∀ x ∈ rest, x < 10 := fun x hx => h x (by simp [hx])
      simp only [List.map_cons, List.reverse_cons, List.foldl_append,
        List.foldl_cons, List.foldl_nil, ih hr, charVal_digitChar hd,
        Nat.ofDigits_cons, List.length_cons]
      ring

theorem digitsVal_natChars (n : Nat) : digitsVal (natChars n) = n := by
  by_cases h0 : n = 0
  · subst h0; rfl
  · rw [natChars, if_neg h0, natCharsAux_eq _ _ (by omega), digitsVal,
      foldl_digitChars _ (fun d hd => Nat.digits_lt_base (by norm_num) hd)]
    simp [Nat.ofDigits_digits]

theorem natChars_digits (n : Nat) : ∀ c ∈ natChars n, isDigitC c = true := by
  by_cases h0 : n = 0
  · subst h0; intro c hc; simp [natChars] at hc; subst hc; rfl
  · rw [natChars, if_neg h0, natCharsAux_eq _ _ (by omega)]
    intro c hc
    simp only [List.mem_reverse, List.mem_map] at hc
    obtain ⟨d, hd, rfl⟩ := hc
    exact isDigitC_digitChar (Nat.digits_lt_base (by norm_num) hd)

theorem natChars_ne_nil (n : Nat) : natChars n ≠ [] := by
  by_cases h0 : n = 0
  · subst h0; simp [natChars]
  · rw [natChars, if_neg h0, natCharsAux, if_neg h0]
    simp

/-- Decimal rendering of a literal `m / 10 ^ e`: for `e = 0` the plain
integer digits, otherwise the digits of `m` padded with leading zeros as
needed and a decimal point placed before the last `e` digits. -/
def numChars (m : Nat) : Nat → List Char
  | 0 => natChars m
  | e + 1 =>
      let ds := List.replicate (e + 2 - (natChars m).length) '0' ++ natChars m
      ds.take (ds.length - (e + 1)) ++ '.' :: ds.drop (ds.length - (e + 1))

/-- Canonical fully parenthesized rendering of a parameter expression in
the OpenQASM arithmetic-expression grammar. -/
def printExprChars : AExpr → List Char
  | .num m e => numChars m e
  | .pi => ['p', 'i']
  | .var s => s.data
  | .neg a => '(' :: '-' :: (printExprChars a ++ [')'])
  | .add a b => '(' :: (printExprChars a ++ '+' :: (printExprChars b ++ [')']))
  | .sub a b => '(' :: (printExprChars a ++ '-' :: (printExprChars b ++ [')']))
  | .mul a b => '(' :: (printExprChars a ++ '*' :: (printExprChars b ++ [')']))
  | .div a b => '(' :: (printExprChars a ++ '/' :: (printExprChars b ++ [')']))

/-- The source mnemonic of each base gate kind (Gate Semantics Table). -/
def baseMnemonic : GateKind → String
  | .X => "x" | .Y => "y" | .Z => "z" | .H => "h" | .S => "s"
  | .Sdg => "sdg" | .T => "t" | .Tdg => "tdg"
  | .Rx => "rx" | .Ry => "ry" | .Rz => "rz"

/-- The mnemonic of a gate with `nc` controls: `c`/`cc` prefixes on the
base mnemonic (Gate Semantics Table). -/
def mnemonicChars (nc : Nat) (k : GateKind) : List Char :=
  List.replicate nc 'c' ++ (baseMnemonic k).data

/-- An operand written `q[i]`. -/
def qOperandChars (i : Nat) : List Char :=
  'q' :: '[' :: (natChars i ++ [']'])

/-- A comma-separated operand list. -/
def operandListChars : List Nat → List Char
  | [] => []
  | [i] => qOperandChars i
  | i :: rest => qOperandChars i ++ ',' :: operandListChars rest

/-- One emitted statement (without the trailing newline): `mnemonic[(param)]
operand_list;` with operands `q[i]`, controls first; measurements are
written `measure q[i] -> c[j];`. -/
def opLineCore : Operation → List Char
  | .gate k cs t p =>
      mnemonicChars cs.length k ++
      (match p with
        | some e => '(' :: (printExprChars e ++ [')'])
        | none => []) ++
      ' ' :: (operandListChars (cs ++ [t]) ++ [';'])
  | .measure q c =>
      ("measure q[").data ++ natChars q ++ ("] -> c[").data ++
        natChars c ++ ("];").data

/-- One emitted statement line, newline-terminated. -/
def opLineChars (op : Operation) : List Char := opLineCore op ++ ['\n']

/-- The double-quote character. -/
def quoteChar : Char := Char.ofNat 34

/-- Modelled from the spec and the notebook's recorded export output: the
fixed header — version declaration, include directive, then a single
unified register pair `qreg q[n]; creg c[n];`.  Both register sizes use
the qubit count: the notebook's measurement-free 4-qubit circuit exports
`qreg q[4];` followed by `creg c[4];`. -/
def headerChars (n : Nat) : List Char :=
  ("OPENQASM 2.0;\n").data ++
  ("include ").data ++ quoteChar :: (("qelib1.inc").data ++ quoteChar :: (";\n").data) ++
  ("qreg q[").data ++ natChars n ++ ("];\n").data ++
  ("creg c[").data ++ natChars n ++ ("];\n").data

/-- The emitted statement lines, one per IR operation in sequence order. -/
def opsChars : List Operation → List Char
  | [] => []
  | op :: rest => opLineChars op ++ opsChars rest

/-- The full emitted program text. -/
def programChars (n : Nat) (ops : List Operation) : List Char :=
  headerChars n ++ opsChars ops

/-- The free variables referenced by an operation's parameter. -/
def opFreeVars : Operation → List String
  | .gate _ _ _ (some e) => freeVarsE e
  | _ => []

/-- The free variables referenced by a gate sequence's parameters. -/
def circuitFreeVars : List Operation → List String
  | [] => []
  | op :: rest => opFreeVars op ++ circuitFreeVars rest

/-- Substitute a variable binding into an operation's parameter. -/
def substOp (b : List (String × AExpr)) : Operation → Operation
  | .gate k cs t p => .gate k cs t (p.map (substE b))
  | .measure q c => .measure q c

/-- Whether an operation's parameter divides by a zero literal. -/
def opHasZeroDiv : Operation → Bool
  | .gate _ _ _ (some e) => hasZeroDivLit e
  | _ => false

/-- The error taxonomy of the spec (section 7); `parseError` covers the
residual fatal parse-time failures the spec leaves unnamed. -/
inductive QasmError where
  | lexError | missingHeader | parseError | unknownGate | arityError
  | unresolvedRegister | indexOutOfRange
  | unboundVariable (v : String) | divisionByZero
deriving DecidableEq, Repr

deriving instance DecidableEq for Except

/-- Modelled from the spec: `export_open_qasm` — after the optional no-Y
decomposition pass, the variable bindings are first validated for
completeness against the referenced-variable set (an omission is an
`UnboundVariableError`, and no text is produced), every parameter is
evaluated at the binding (here: exact substitution to a closed
expression; a division by a zero literal is a `DivisionByZeroError`), and
the program text is emitted. -/
def export_open_qasm (c : CircuitIR) (vars : List (String × AExpr))
    (zx_calculus : Bool) : Except QasmError String :=
  match (circuitFreeVars (if zx_calculus then decompose_remove_y c else c).ops).filter
      (fun v => (bindLookup vars v).isNone) with
  | v :: _ => .error (.unboundVariable v)
  | [] =>
      if ((if zx_calculus then decompose_remove_y c else c).ops.map (substOp vars)).any
          opHasZeroDiv then .error .divisionByZero
      else .ok (String.mk (programChars c.n_qubits
        ((if zx_calculus then decompose_remove_y c else c).ops.map (substOp vars))))

theorem string_ext {a b : String} (h : a.data = b.data) : a = b := by
  cases a; cases b; exact congrArg String.mk h

theorem export_ok_iff (c : CircuitIR) (b : List (String × AExpr)) (zx : Bool)
    (s : String) :
    export_open_qasm c b zx = .ok s ↔
      ((circuitFreeVars (if zx then decompose_remove_y c else c).ops).filter
          (fun v => (bindLookup b v).isNone) = [] ∧
        ((if zx then decompose_remove_y c else c).ops.map (substOp b)).any
          opHasZeroDiv = false ∧
        s = String.mk (programChars c.n_qubits
          ((if zx then decompose_remove_y c else c).ops.map (substOp b)))) := by
  unfold export_open_qasm
  cases hfe : (circuitFreeVars (if zx then decompose_remove_y c else c).ops).filter
      (fun v => (bindLookup b v).isNone) with
  | cons v rest => simp
  | nil =>
      cases hz : ((if zx then decompose_remove_y c else c).ops.map (substOp b)).any
          opHasZeroDiv with
      | true => simp [hz]
      | false => simp [hz, eq_comm]

theorem bindLookup_mem {b : List (String × AExpr)} {s : String} {w : AExpr}
    (h : bindLookup b s = some w) : ∃ n, (n, w) ∈ b := by
  induction b with
  | nil => simp [bindLookup] at h
  | cons p rest ih =>
      obtain ⟨n, v⟩ := p
      rw [bindLookup] at h
      split at h
      · have hv := Option.some.inj h
        subst hv
        exact ⟨n, by simp⟩
      · obtain ⟨n', hn'⟩ := ih h
        exact ⟨n', by simp [hn']⟩

theorem export_unbound_iff (c : CircuitIR) (b : List (String × AExpr)) (zx : Bool) :
    (∃ v, export_open_qasm c b zx = .error (.unboundVariable v)) ↔
      (circuitFreeVars (if zx then decompose_remove_y c else c).ops).filter
        (fun v => (bindLookup b v).isNone) ≠ [] := by
  unfold export_open_qasm
  cases hfe : (circuitFreeVars (if zx then decompose_remove_y c else c).ops).filter
      (fun v => (bindLookup b v).isNone) with
  | nil =>
      constructor
      · rintro ⟨v, hv⟩
        split at hv
        · simp_all
        · split at hv <;> split at hv <;> simp_all
      · intro h
        exact absurd rfl h
  | cons w rest =>
      constructor
      · intro _
        simp
      · intro _
        exact ⟨w, rfl⟩

theorem freeVarsE_substE {b : List (String × AExpr)}
    (hb : ∀ p ∈ b, freeVarsE p.2 = []) (e : AExpr)
    (hc : ∀ v ∈ freeVarsE e, (bindLookup b v).isSome) :
    freeVarsE (substE b e) = [] := by
  induction e with
  | num m i => rfl
  | pi => rfl
  | var s =>
      have := hc s (by simp [freeVarsE])
      cases hl : bindLookup b s with
      | none => rw [hl] at this; simp at this
      | some w =>
          obtain ⟨n, hn⟩ := bindLookup_mem hl
          simp only [substE, hl]
          exact hb (n, w) hn
  | neg a ih => exact ih fun v hv => hc v hv
  | add a a' ih ih' =>
      simp only [freeVarsE] at hc ⊢
      rw [ih fun v hv => hc v (by simp [hv]), ih' fun v hv => hc v (by simp [hv])]
      rfl
  | sub a a' ih ih' =>
      simp only [freeVarsE] at hc ⊢
      rw [ih fun v hv => hc v (by simp [hv]), ih' fun v hv => hc v (by simp [hv])]
      rfl
  | mul a a' ih ih' =>
      simp only [freeVarsE] at hc ⊢
      rw [ih fun v hv => hc v (by simp [hv]), ih' fun v hv => hc v (by simp [hv])]
      rfl
  | div a a' ih ih' =>
      simp only [freeVarsE] at hc ⊢
      rw [ih fun v hv => hc v (by simp [hv]), ih' fun v hv => hc v (by simp [hv])]
      rfl

theorem mem_circuitFreeVars {ops : List Operation} {op : Operation} {v : String}
    (hop : op ∈ ops) (hv : v ∈ opFreeVars op) : v ∈ circuitFreeVars ops := by
  induction ops with
  | nil => simp at hop
  | cons o rest ih =>
      rcases List.mem_cons.mp hop with h | h
      · subst h; simp [circuitFreeVars, hv]
      · simp [circuitFreeVars, ih h]

/-- C4: export fails with `UnboundVariableError` exactly when the supplied
variable bindings omit some free variable referenced by a gate's parameter
expression (the completeness check runs before any evaluation, so an
omission is reported even in the presence of other evaluation errors, and
no partial text is returned — the result is a single `Except` value).
When the binding is complete, every gate parameter in the emitted program
is the closed (concrete) expression obtained by evaluating its parameter
expression at that binding. -/
theorem claim_c4_unbound_variable (c : CircuitIR) (b : List (String × AExpr))
    (hb : ∀ p ∈ b, freeVarsE p.2 = []) :
    ((∃ v, export_open_qasm c b false = .error (.unboundVariable v)) ↔
      ∃ v ∈ circuitFreeVars c.ops, bindLookup b v = none) ∧
    ((∀ v ∈ circuitFreeVars c.ops, (bindLookup b v).isSome) →
      (∀ op ∈ c.ops.map (substOp b), opFreeVars op = []) ∧
      ((c.ops.map (substOp b)).any opHasZeroDiv = false →
        export_open_qasm c b false =
          .ok (String.mk (programChars c.n_qubits (c.ops.map (substOp b)))))) := by
  have hops : (if false then decompose_remove_y c else c) = c := rfl
  constructor
  · rw [export_unbound_iff, hops]
    rw [Ne, List.filter_eq_nil_iff]
    push_neg
    constructor
    · rintro ⟨v, hv, hne⟩
      exact ⟨v, hv, by simpa [Option.isNone_iff_eq_none] using hne⟩
    · rintro ⟨v, hv, hnone⟩
      exact ⟨v, hv, by simp [hnone]⟩
  · intro hcomplete
    constructor
    · intro op hop
      rw [List.mem_map] at hop
      obtain ⟨o, ho, rfl⟩ := hop
      cases o with
      | gate k cs t p =>
          cases p with
          | none => rfl
          | some e =>
              simp only [substOp, Option.map_some', opFreeVars]
              exact freeVarsE_substE hb e fun v hv =>
                hcomplete v (mem_circuitFreeVars ho hv)
      | measure q cl => rfl
    · intro hz
      rw [export_ok_iff]
      refine ⟨?_, by rw [hops]; exact hz, by rw [hops]⟩
      rw [hops, List.filter_eq_nil_iff]
      intro v hv
      have hs := hcomplete v hv
      simp only [Option.isNone_iff_eq_none, decide_eq_true_eq]
      intro hnone
      rw [hnone] at hs
      simp at hs

/-- The single-`Ry` circuit of the spec's variable-substitution example,
`Ry(0.1 * pi * "v")` on qubit 0. -/
def c4circ : CircuitIR :=
  ⟨[.gate .Ry [] 0 (some (.mul (.mul (.num 1 1) .pi) (.var ("v"))))], 1, 0⟩

/-- The binding `{"v" : 1}` of the spec's variable-substitution example. -/
def c4bind : List (String × AExpr) := [(("v"), .num 1 0)]

/-- Witness for C4: with the complete binding `{"v": 1}` the export of
`{Ry(0.1*pi*"v")}` succeeds and emits the substituted parameters; with the
empty binding it fails with `UnboundVariableError` naming `v`. -/
theorem claim_c4_unbound_variable_witness :
    export_open_qasm c4circ c4bind false =
      .ok (String.mk (programChars c4circ.n_qubits (c4circ.ops.map (substOp c4bind)))) ∧
    export_open_qasm c4circ [] false = .error (.unboundVariable ("v")) :=
  ⟨((claim_c4_unbound_variable c4circ c4bind (by decide)).2 (by decide)).2 (by decide),
   by decide⟩

/-- Counterexample for C5: a measurement-free 4-qubit circuit has resolved
classical-bit count 0, yet the emitted header declares `creg c[4];` (the
qubit count) — the text does not begin with a `creg` declaration covering
the IR's resolved classical-bit count. -/
theorem claim_c5_counterexample :
    export_open_qasm ⟨[.gate .H [] 0 none], 4, 0⟩ [] false =
      .ok ("OPENQASM 2.0;\ninclude \"qelib1.inc\";\nqreg q[4];\ncreg c[4];\nh q[0];\n") ∧
    (⟨[.gate .H [] 0 none], 4, 0⟩ : CircuitIR).n_cbits = 0 ∧
    ¬ (("OPENQASM 2.0;\ninclude \"qelib1.inc\";\nqreg q[4];\ncreg c[0];\n").data <+:
        ("OPENQASM 2.0;\ninclude \"qelib1.inc\";\nqreg q[4];\ncreg c[4];\nh q[0];\n").data) := by
  refine ⟨by decide, rfl, by decide⟩

/-- The decimal string of a natural number. -/
def natStr (n : Nat) : String := String.mk (natChars n)

/-- An emitted statement as a line string (no trailing newline). -/
def opLineStr (op : Operation) : String := String.mk (opLineCore op)

/-- Join lines with newline separators. -/
def joinLines : List String → String
  | [] => ""
  | [x] => x
  | x :: y :: rest => x ++ "\n" ++ joinLines (y :: rest)

theorem joinLines_cons (x : String) (l : List String) (hl : l ≠ []) :
    joinLines (x :: l) = x ++ "\n" ++ joinLines l := by
  cases l with
  | nil => exact absurd rfl hl
  | cons y rest => rfl

theorem joinLines_ops_data (ops' : List Operation) :
    (joinLines (ops'.map opLineStr ++ [""])).data = opsChars ops' := by
  induction ops' with
  | nil => rfl
  | cons op rest ih =>
      have hne : rest.map opLineStr ++ [""] ≠ [] := by simp
      rw [List.map_cons, List.cons_append, joinLines_cons _ _ hne,
        String.data_append, String.data_append, ih]
      simp [opLineStr, opLineChars, opsChars]

theorem program_join (n : Nat) (ops' : List Operation) :
    String.mk (programChars n ops') =
      joinLines (["OPENQASM 2.0;", "include \"qelib1.inc\";",
        ("qreg q[" ++ natStr n ++ "];"), ("creg c[" ++ natStr n ++ "];")] ++
        ops'.map opLineStr ++ [""]) := by
  apply string_ext
  have hne : ops'.map opLineStr ++ [""] ≠ [] := by simp
  have h4 : (("creg c[" ++ natStr n ++ "];") : String) :: (ops'.map opLineStr ++ [""]) ≠ [] := by
    simp
  have h3 : (("qreg q[" ++ natStr n ++ "];") : String) ::
      ((("creg c[" ++ natStr n ++ "];") : String) :: (ops'.map opLineStr ++ [""])) ≠ [] := by
    simp
  have h2 : ("include \"qelib1.inc\";" : String) ::
      ((("qreg q[" ++ natStr n ++ "];") : String) ::
        ((("creg c[" ++ natStr n ++ "];") : String) :: (ops'.map opLineStr ++ [""]))) ≠ [] := by
    simp
  show programChars n ops' = _
  rw [show (["OPENQASM 2.0;", "include \"qelib1.inc\";",
        ("qreg q[" ++ natStr n ++ "];"), ("creg c[" ++ natStr n ++ "];")] ++
        ops'.map opLineStr ++ [""]) =
      ("OPENQASM 2.0;" : String) :: (("include \"qelib1.inc\";" : String) ::
        ((("qreg q[" ++ natStr n ++ "];") : String) ::
          ((("creg c[" ++ natStr n ++ "];") : String) :: (ops'.map opLineStr ++ [""])))) from rfl]
  rw [joinLines_cons _ _ h2, joinLines_cons _ _ h3, joinLines_cons _ _ h4,
    joinLines_cons _ _ hne]
  simp only [String.data_append, joinLines_ops_data]
  have dmk : ∀ l : List Char, (String.mk l).data = l := fun _ => rfl
  have d1 : ("OPENQASM 2.0;\n" : String).data =
      ("OPENQASM 2.0;" : String).data ++ ("\n" : String).data := rfl
  have d2 : ("include ").data ++ quoteChar :: (("qelib1.inc").data ++ quoteChar :: ((";\n").data)) =
      ("include \"qelib1.inc\";" : String).data ++ ("\n" : String).data := rfl
  have d3 : ("];\n" : String).data = ("];" : String).data ++ ("\n" : String).data := rfl
  simp only [programChars, headerChars, natStr, dmk, d1, d2, d3]
  simp [List.append_assoc]
  decide

/-- C5 amended: for every CircuitIR, the exported text consists of the
version declaration, the include directive, then exactly one `qreg q[n];`
and one `creg c[n];` where `n` is the IR's resolved qubit count (a single
unified register pair regardless of how many registers existed at import
time; the creg size equals the qubit count, not the classical-bit count),
followed by exactly one statement line per IR gate operation in IR
sequence order, each formatted `mnemonic[(param)] operand_list;` with
operands written `q[i]`. -/
theorem claim_c5_amended_header_format (c : CircuitIR) (b : List (String × AExpr))
    (zx : Bool) (s : String) (h : export_open_qasm c b zx = .ok s) :
    s = joinLines (["OPENQASM 2.0;", "include \"qelib1.inc\";",
      ("qreg q[" ++ natStr c.n_qubits ++ "];"), ("creg c[" ++ natStr c.n_qubits ++ "];")] ++
      ((if zx then decompose_remove_y c else c).ops.map (substOp b)).map opLineStr ++ [""]) := by
  rw [export_ok_iff] at h
  rw [h.2.2, program_join]

/-- Witness for C5 (amended form): the header lines of a concrete export. -/
theorem claim_c5_amended_header_format_witness :
    ("OPENQASM 2.0;\ninclude \"qelib1.inc\";\nqreg q[2];\ncreg c[2];\nx q[0];\n" : String) =
      joinLines (["OPENQASM 2.0;", "include \"qelib1.inc\";",
        ("qreg q[" ++ natStr 2 ++ "];"), ("creg c[" ++ natStr 2 ++ "];")] ++
        ((if false then decompose_remove_y ⟨[.gate .X [] 0 none], 2, 3⟩
          else ⟨[.gate .X [] 0 none], 2, 3⟩).ops.map (substOp [])).map opLineStr ++ [""]) :=
  claim_c5_amended_header_format ⟨[.gate .X [] 0 none], 2, 3⟩ [] false _ (by decide)

/-- Whether a circuit contains a measurement operation. -/
def hasMeasure (c : CircuitIR) : Bool :=
  c.ops.any (fun op => match op with | .measure _ _ => true | _ => false)

/-- C10: for a circuit with no measurements and no classical bits the
export still emits a creg declaration, and its size equals the circuit's
qubit count rather than the circuit's resolved classical-bit count of
zero. -/
theorem claim_c10_creg_size (c : CircuitIR) (b : List (String × AExpr)) (zx : Bool)
    (s : String) (hnc : c.n_cbits = 0) (hnm : hasMeasure c = false)
    (h : export_open_qasm c b zx = .ok s) :
    ∃ rest, s.data = ("OPENQASM 2.0;\n").data ++
      (("include ").data ++ quoteChar :: (("qelib1.inc").data ++ quoteChar :: ((";\n").data))) ++
      (("qreg q[").data ++ natChars c.n_qubits ++ ("];\n").data) ++
      (("creg c[").data ++ natChars c.n_qubits ++ ("];\n").data) ++ rest := by
  rw [export_ok_iff] at h
  refine ⟨opsChars ((if zx then decompose_remove_y c else c).ops.map (substOp b)), ?_⟩
  rw [h.2.2]
  show programChars _ _ = _
  simp [programChars, headerChars, List.append_assoc]

/-- Witness for C10: the notebook's measurement-free 4-qubit circuit
exports a header whose creg line is `creg c[4];`. -/
theorem claim_c10_creg_size_witness :
    ∃ rest,
      ("OPENQASM 2.0;\ninclude \"qelib1.inc\";\nqreg q[4];\ncreg c[4];\nh q[0];\nh q[1];\ny q[0];\nz q[2];\ncx q[0],q[3];\nry(pi) q[2];\n" : String).data =
      ("OPENQASM 2.0;\n").data ++
      (("include ").data ++ quoteChar :: (("qelib1.inc").data ++ quoteChar :: ((";\n").data))) ++
      (("qreg q[").data ++ natChars 4 ++ ("];\n").data) ++
      (("creg c[").data ++ natChars 4 ++ ("];\n").data) ++ rest :=
  claim_c10_creg_size ⟨[.gate .H [] 0 none, .gate .H [] 1 none, .gate .Y [] 0 none,
      .gate .Z [] 2 none, .gate .X [0] 3 none, .gate .Ry [] 2 (some .pi)], 4, 0⟩
    [] false _ rfl (by decide) (by decide)

/-- The lexical tokens of the OpenQASM 2.0 subset (spec section 4.1):
identifiers, numeric literals (as mantissa/exponent), string literals,
declaration symbols, the arrow, and the arithmetic operators. -/
inductive Tok where
  | ident (s : String)
  | number (m : Nat) (e : Nat)
  | str (s : String)
  | lbrace | rbrace | lbrack | rbrack | lparen | rparen
  | comma | semi | arrow | plus | minus | star | slash
deriving DecidableEq, Repr

/-- The opening-brace character. -/
def lbraceChar : Char := Char.ofNat 123

/-- The closing-brace character. -/
def rbraceChar : Char := Char.ofNat 125

/-- Whitespace characters. -/
def isSpaceC (c : Char) : Bool := c = ' ' || c = '\n' || c = '\t' || c = '\r'

/-- Letters and underscore (identifier start characters). -/
def isAlphaC (c : Char) : Bool :=
  (65 ≤ c.toNat && c.toNat ≤ 90) || (97 ≤ c.toNat && c.toNat ≤ 122) || c.toNat = 95

/-- Identifier continuation characters. -/
def isIdentC (c : Char) : Bool := isAlphaC c || isDigitC c

/-- Single-character symbol tokens. -/
def simpleTok (c : Char) : Option Tok :=
  if c = lbraceChar then some .lbrace
  else if c = rbraceChar then some .rbrace
  else if c = '[' then some .lbrack
  else if c = ']' then some .rbrack
  else if c = '(' then some .lparen
  else if c = ')' then some .rparen
  else if c = ',' then some .comma
  else if c = ';' then some .semi
  else if c = '+' then some .plus
  else if c = '*' then some .star
  else none

/-- Lexer modes: the pending partially-read token, if any. -/
inductive LMode where
  | norm
  | identAcc (acc : List Char)
  | numInt (m : Nat)
  | numDot (m : Nat)
  | numFrac (m : Nat) (e : Nat)
  | comment
  | strAcc (acc : List Char)
  | dash
  | slashC
deriving DecidableEq, Repr

/-- Lexer state: emitted tokens in reverse order plus the current mode (or
a sticky error). -/
def LState : Type := Except QasmError (List Tok × LMode)

/-- Process one character from the `norm` mode with reversed token
accumulator `ts`. -/
def normStep (ts : List Tok) (c : Char) : LState :=
  if isSpaceC c then .ok (ts, .norm)
  else if isDigitC c then .ok (ts, .numInt (charVal c))
  else if isAlphaC c then .ok (ts, .identAcc [c])
  else if c = '-' then .ok (ts, .dash)
  else if c = '/' then .ok (ts, .slashC)
  else if c = quoteChar then .ok (ts, .strAcc [])
  else match simpleTok c with
    | some t => .ok (t :: ts, .norm)
    | none => .error .lexError

/-- Modelled from the spec: one step of the Lexer (section 4.1) — a
character-at-a-time state machine recognizing identifiers, integer and
decimal numeric literals, the declaration symbols, `->`, `//` line
comments, and double-quoted strings; an unrecognized character is a
`LexError`. -/
def lexStep (st : LState) (c : Char) : LState :=
  match st with
  | .error e => .error e
  | .ok (ts, .norm) => normStep ts c
  | .ok (ts, .identAcc acc) =>
      if isIdentC c then .ok (ts, .identAcc (acc ++ [c]))
      else normStep (.ident (String.mk acc) :: ts) c
  | .ok (ts, .numInt m) =>
      if isDigitC c then .ok (ts, .numInt (10 * m + charVal c))
      else if c = '.' then .ok (ts, .numDot m)
      else normStep (.number m 0 :: ts) c
  | .ok (ts, .numDot m) =>
      if isDigitC c then .ok (ts, .numFrac (10 * m + charVal c) 1)
      else .error .lexError
  | .ok (ts, .numFrac m e) =>
      if isDigitC c then .ok (ts, .numFrac (10 * m + charVal c) (e + 1))
      else normStep (.number m e :: ts) c
  | .ok (ts, .comment) =>
      if c = '\n' then .ok (ts, .norm) else .ok (ts, .comment)
  | .ok (ts, .strAcc acc) =>
      if c = quoteChar then .ok (.str (String.mk acc) :: ts, .norm)
      else .ok (ts, .strAcc (acc ++ [c]))
  | .ok (ts, .dash) =>
      if c = '>' then .ok (.arrow :: ts, .norm)
      else normStep (.minus :: ts) c
  | .ok (ts, .slashC) =>
      if c = '/' then .ok (ts, .comment)
      else normStep (.slash :: ts) c

/-- Flush the pending token at end of input. -/
def lexFinish (st : LState) : Except QasmError (List Tok) :=
  match st with
  | .error e => .error e
  | .ok (ts, .norm) => .ok ts.reverse
  | .ok (ts, .identAcc acc) => .ok (Tok.ident (String.mk acc) :: ts).reverse
  | .ok (ts, .numInt m) => .ok (Tok.number m 0 :: ts).reverse
  | .ok (_, .numDot _) => .error .lexError
  | .ok (ts, .numFrac m e) => .ok (Tok.number m e :: ts).reverse
  | .ok (ts, .comment) => .ok ts.reverse
  | .ok (_, .strAcc _) => .error .lexError
  | .ok (ts, .dash) => .ok (Tok.minus :: ts).reverse
  | .ok (ts, .slashC) => .ok (Tok.slash :: ts).reverse

/-- Run the lexer fold from a given reversed accumulator in `norm` mode. -/
def lexFold (ts : List Tok) (cs : List Char) : LState :=
  cs.foldl lexStep (.ok (ts, .norm))

/-- Modelled from the spec: the Lexer — tokenize raw text. -/
def lexChars (cs : List Char) : Except QasmError (List Tok) :=
  lexFinish (lexFold [] cs)

/-- A register/bit reference in source syntax: `name[index]` or a bare
register name (spec section 4.3). -/
inductive AOperand where
  | idx (reg : String) (i : Nat)
  | whole (reg : String)
deriving DecidableEq, Repr

/-- A gate-application statement: mnemonic, optional parenthesized
parameter expressions, operand list. -/
structure GateApp where
  name : String
  params : List AExpr
  args : List AOperand
deriving DecidableEq, Repr

/-- Program statements (spec section 4.3): register declarations,
gate-macro definitions, gate applications, measurements. -/
inductive Stmt where
  | qreg (nm : String) (size : Nat)
  | creg (nm : String) (size : Nat)
  | gatedef (nm : String) (numFormals : List String) (qFormals : List String)
      (body : List GateApp)
  | app (g : GateApp)
  | meas (q : AOperand) (c : AOperand)
deriving DecidableEq, Repr

/-- Recursive-descent positions for the arithmetic-expression grammar
(spec section 4.2): factor, term, expression, and the two operator
loops carrying the parsed left operand. -/
inductive PMode where
  | atF | atM | atA
  | loopM (acc : AExpr)
  | loopA (acc : AExpr)
deriving DecidableEq, Repr

/-- Modelled from the spec: `parse_expression` — standard arithmetic
grammar with precedence unary minus > `*`/`/` > `+`/`-`, parentheses
overriding; `pi` is the reserved constant and any other identifier a
free-variable reference.  The fuel argument only bounds the recursion
depth; callers supply enough for any input. -/
def parseE : Nat → PMode → List Tok → Except QasmError (AExpr × List Tok)
  | 0, _, _ => .error .parseError
  | f + 1, mode, toks =>
    match mode with
    | .atF =>
        match toks with
        | .lparen :: r => do
            let (e, r1) ← parseE f .atA r
            match r1 with
            | .rparen :: r2 => .ok (e, r2)
            | _ => .error .parseError
        | .minus :: r => do
            let (e, r1) ← parseE f .atF r
            .ok (.neg e, r1)
        | .number m ex :: r => .ok (.num m ex, r)
        | .ident s :: r => if s = "pi" then .ok (.pi, r) else .ok (.var s, r)
        | _ => .error .parseError
    | .atM => do
        let (a, r) ← parseE f .atF toks
        parseE f (.loopM a) r
    | .loopM a =>
        match toks with
        | .star :: r => do
            let (b, r1) ← parseE f .atF r
            parseE f (.loopM (.mul a b)) r1
        | .slash :: r => do
            let (b, r1) ← parseE f .atF r
            parseE f (.loopM (.div a b)) r1
        | _ => .ok (a, toks)
    | .atA => do
        let (a, r) ← parseE f .atM toks
        parseE f (.loopA a) r
    | .loopA a =>
        match toks with
        | .plus :: r => do
            let (b, r1) ← parseE f .atM r
            parseE f (.loopA (.add a b)) r1
        | .minus :: r => do
            let (b, r1) ← parseE f .atM r
            parseE f (.loopA (.sub a b)) r1
        | _ => .ok (a, toks)

/-- Parse one operand: `name[index]` or bare `name`. -/
def parseOperand : List Tok → Except QasmError (AOperand × List Tok)
  | .ident nm :: .lbrack :: .number i 0 :: .rbrack :: r => .ok (.idx nm i, r)
  | .ident nm :: r => .ok (.whole nm, r)
  | _ => .error .parseError

/-- Parse a comma-separated operand list. -/
def parseOperandList : Nat → List Tok → Except QasmError (List AOperand × List Tok)
  | 0, _ => .error .parseError
  | f + 1, toks => do
      let (a, r) ← parseOperand toks
      match r with
      | .comma :: r2 => do
          let (rest, r3) ← parseOperandList f r2
          .ok (a :: rest, r3)
      | _ => .ok ([a], r)

/-- Parse a comma-separated expression list. -/
def parseExprList : Nat → List Tok → Except QasmError (List AExpr × List Tok)
  | 0, _ => .error .parseError
  | f + 1, toks => do
      let (e, r) ← parseE f .atA toks
      match r with
      | .comma :: r2 => do
          let (rest, r3) ← parseExprList f r2
          .ok (e :: rest, r3)
      | _ => .ok ([e], r)

/-- Parse a comma-separated identifier list (macro formals). -/
def parseIdentList : Nat → List Tok → Except QasmError (List String × List Tok)
  | 0, _ => .error .parseError
  | f + 1, toks =>
      match toks with
      | .ident nm :: .comma :: r => do
          let (rest, r2) ← parseIdentList f r
          .ok (nm :: rest, r2)
      | .ident nm :: r => .ok ([nm], r)
      | _ => .error .parseError

/-- Expect a `;`. -/
def expectSemi : List Tok → Except QasmError (List Tok)
  | .semi :: r => .ok r
  | _ => .error .parseError

/-- Parse a gate-application statement
`name [ (params) ] operand_list ;`. -/
def parseApp : Nat → List Tok → Except QasmError (GateApp × List Tok)
  | 0, _ => .error .parseError
  | f + 1, toks =>
      match toks with
      | .ident nm :: .lparen :: r => do
          let (ps, r1) ← parseExprList f r
          match r1 with
          | .rparen :: r2 => do
              let (args, r3) ← parseOperandList f r2
              let r4 ← expectSemi r3
              .ok (⟨nm, ps, args⟩, r4)
          | _ => .error .parseError
      | .ident nm :: r => do
          let (args, r1) ← parseOperandList f r
          let r2 ← expectSemi r1
          .ok (⟨nm, [], args⟩, r2)
      | _ => .error .parseError

/-- Parse a gate-macro body: gate applications up to the closing brace. -/
def parseBody : Nat → List Tok → Except QasmError (List GateApp × List Tok)
  | 0, _ => .error .parseError
  | f + 1, toks =>
      match toks with
      | .rbrace :: r => .ok ([], r)
      | _ => do
          let (g, r) ← parseApp f toks
          let (gs, r2) ← parseBody f r
          .ok (g :: gs, r2)

/-- Parse one statement (spec section 4.3 grammar productions). -/
def parseStmt : Nat → List Tok → Except QasmError (Stmt × List Tok)
  | 0, _ => .error .parseError
  | f + 1, toks =>
      match toks with
      | .ident s :: r =>
          if s = "qreg" then
            match r with
            | .ident nm :: .lbrack :: .number sz 0 :: .rbrack :: .semi :: r2 =>
                .ok (.qreg nm sz, r2)
            | _ => .error .parseError
          else if s = "creg" then
            match r with
            | .ident nm :: .lbrack :: .number sz 0 :: .rbrack :: .semi :: r2 =>
                .ok (.creg nm sz, r2)
            | _ => .error .parseError
          else if s = "measure" then do
            let (q, r1) ← parseOperand r
            match r1 with
            | .arrow :: r2 => do
                let (cb, r3) ← parseOperand r2
                let r4 ← expectSemi r3
                .ok (.meas q cb, r4)
            | _ => .error .parseError
          else if s = "gate" then
            match r with
            | .ident nm :: .lparen :: r1 => do
                let (nf, r2) ← parseIdentList f r1
                match r2 with
                | .rparen :: r3 => do
                    let (qf, r4) ← parseIdentList f r3
                    match r4 with
                    | .lbrace :: r5 => do
                        let (body, r6) ← parseBody f r5
                        .ok (.gatedef nm nf qf body, r6)
                    | _ => .error .parseError
                | _ => .error .parseError
            | .ident nm :: r1 => do
                let (qf, r2) ← parseIdentList f r1
                match r2 with
                | .lbrace :: r3 => do
                    let (body, r4) ← parseBody f r3
                    .ok (.gatedef nm [] qf body, r4)
                | _ => .error .parseError
            | _ => .error .parseError
          else do
            let (g, r1) ← parseApp f toks
            .ok (.app g, r1)
      | _ => .error .parseError

/-- Modelled from the spec: `parse_program` statement sequence. -/
def parseStmts : Nat → List Tok → Except QasmError (List Stmt)
  | _, [] => .ok []
  | 0, _ => .error .parseError
  | f + 1, toks => do
      let (st, r) ← parseStmt f toks
      let sts ← parseStmts f r
      .ok (st :: sts)

/-- Association-list lookup by name. -/
def assocFind {α : Type} : List (String × α) → String → Option α
  | [], _ => none
  | (n, v) :: rest, s => if n = s then some v else assocFind rest s

/-- Reverse lookup: base mnemonic to IR gate kind (Gate Semantics Table,
exact-match). -/
def baseOfMnemonic (s : String) : Option GateKind :=
  if s = "x" then some .X
  else if s = "y" then some .Y
  else if s = "z" then some .Z
  else if s = "h" then some .H
  else if s = "s" then some .S
  else if s = "sdg" then some .Sdg
  else if s = "t" then some .T
  else if s = "tdg" then some .Tdg
  else if s = "rx" then some .Rx
  else if s = "ry" then some .Ry
  else if s = "rz" then some .Rz
  else none

/-- Modelled from the spec: Gate Semantics Table lookup over the
mnemonic's characters — a mnemonic is a base gate name optionally prefixed
by `c` (one control) or `cc` (two controls). -/
def mnemonicKindChars (cs : List Char) : Option (GateKind × Nat) :=
  match baseOfMnemonic (String.mk cs) with
  | some k => some (k, 0)
  | none =>
      match cs with
      | 'c' :: rest =>
          match baseOfMnemonic (String.mk rest) with
          | some k => some (k, 1)
          | none =>
              match rest with
              | 'c' :: rest2 => (baseOfMnemonic (String.mk rest2)).map (fun k => (k, 2))
              | _ => none
      | _ => none

/-- Gate Semantics Table lookup: mnemonic to kind and control count
(exact match). -/
def mnemonicKind (s : String) : Option (GateKind × Nat) :=
  mnemonicKindChars s.data

/-- A macro definition after eager flattening: the body is a list of
primitive gate applications over the formal names. -/
structure MacroDef where
  numFormals : List String
  qFormals : List String
  body : List GateApp
deriving DecidableEq, Repr

/-- Register table entry lookup: name to (offset, size). -/
def regLookup : List (String × Nat × Nat) → String → Option (Nat × Nat)
  | [], _ => none
  | (nm, off, sz) :: rest, s => if nm = s then some (off, sz) else regLookup rest s

/-- IR-builder state: quantum and classical register tables with running
global counts, the macro table (newest first), and the accumulated
operation sequence. -/
structure BState where
  qregs : List (String × Nat × Nat)
  nq : Nat
  cregs : List (String × Nat × Nat)
  nc : Nat
  macros : List (String × MacroDef)
  ops : List Operation
deriving DecidableEq, Repr

/-- Effectful map over `Except`, with explicit structural recursion. -/
def mapME {α β : Type} (f : α → Except QasmError β) : List α → Except QasmError (List β)
  | [] => .ok []
  | a :: as => do
      let b ← f a
      let bs ← mapME f as
      .ok (b :: bs)

/-- The broadcast size of one operand: `none` for an indexed operand, the
register size for a bare register name. -/
def argSize (qr : List (String × Nat × Nat)) : AOperand → Except QasmError (Option Nat)
  | .idx _ _ => .ok none
  | .whole nm =>
      match regLookup qr nm with
      | some (_, sz) => .ok (some sz)
      | none => .error .unresolvedRegister

/-- Modelled from the spec: bare-register expansion — a statement with a
bare register operand of size `n` is expanded to one statement per bit in
ascending index order, before index resolution; several bare operands must
have equal sizes. -/
def broadcastApp (qr : List (String × Nat × Nat)) (g : GateApp) :
    Except QasmError (List GateApp) := do
  let sizes ← mapME (argSize qr) g.args
  match sizes.reduceOption with
  | [] => .ok [g]
  | n :: restS =>
      if restS.all (fun x => x = n) then
        .ok ((List.range n).map (fun k =>
          ⟨g.name, g.params, g.args.map (fun a =>
            match a with
            | .idx rg i => .idx rg i
            | .whole rg => .idx rg k)⟩))
      else .error .arityError

/-- Resolve an indexed operand to its global index, checking the declared
register and its size (spec section 4.5). -/
def resolveOperand (regs : List (String × Nat × Nat)) : AOperand → Except QasmError Nat
  | .idx nm i =>
      match regLookup regs nm with
      | some (off, sz) => if i < sz then .ok (off + i) else .error .indexOutOfRange
      | none => .error .unresolvedRegister
  | .whole _ => .error .parseError

/-- Emit the IR operation of a primitive (non-macro) gate application with
indexed operands: table lookup, operand resolution, arity check, parameter
arity check, zero-literal-division check. -/
def builtinOp (qr : List (String × Nat × Nat)) (g : GateApp) :
    Except QasmError Operation :=
  match mnemonicKind g.name with
  | none => .error .unknownGate
  | some (k, nctrl) => do
      let globals ← mapME (resolveOperand qr) g.args
      if globals.length = nctrl + 1 then
        if (if kindHasParam k then g.params.length = 1 else g.params.length = 0) then
          if g.params.any hasZeroDivLit then .error .divisionByZero
          else .ok (.gate k (globals.take nctrl) (globals.getD nctrl 0) g.params.head?)
        else .error .arityError
      else .error .arityError

/-- Substitute macro actual operands for formal names. -/
def substArg (qsub : List (String × AOperand)) : AOperand → AOperand
  | .whole nm =>
      match assocFind qsub nm with
      | some a => a
      | none => .whole nm
  | .idx nm i => .idx nm i

/-- Substitute macro actuals (operands and parameter expressions) into a
body gate application. -/
def substGateApp (qsub : List (String × AOperand)) (psub : List (String × AExpr))
    (g : GateApp) : GateApp :=
  ⟨g.name, g.params.map (substE psub), g.args.map (substArg qsub)⟩

/-- Flatten one body statement of a macro definition against the
previously defined macros (spec sections 3 and 4.5: bodies reference only
formals and earlier macros, so eager expansion terminates). -/
def expandBodyApp (macros : List (String × MacroDef)) (g : GateApp) :
    Except QasmError (List GateApp) :=
  match assocFind macros g.name with
  | some d =>
      if g.args.length = d.qFormals.length then
        if g.params.length = d.numFormals.length then
          .ok (d.body.map (substGateApp (d.qFormals.zip g.args)
            (d.numFormals.zip g.params)))
        else .error .arityError
      else .error .arityError
  | none =>
      match mnemonicKind g.name with
      | some _ => .ok [g]
      | none => .error .unknownGate

/-- Flatten a macro body. -/
def expandBody (macros : List (String × MacroDef)) :
    List GateApp → Except QasmError (List GateApp)
  | [] => .ok []
  | g :: gs => do
      let a ← expandBodyApp macros g
      let b ← expandBody macros gs
      .ok (a ++ b)

/-- Definition-time validation of a macro body statement: operands are
bare formal names and parameter expressions reference only numeric
formals. -/
def bodyAppOk (nf qf : List String) (g : GateApp) : Bool :=
  g.args.all (fun a =>
    match a with
    | .whole nm => decide (nm ∈ qf)
    | .idx _ _ => false) &&
  g.params.all (fun e => (freeVarsE e).all (fun v => decide (v ∈ nf)))

/-- Instantiate a flattened macro at a call site: substitute the actual
operands and parameter expressions for the formals and emit each primitive
operation. -/
def applyMacro (qr : List (String × Nat × Nat)) (d : MacroDef) (g : GateApp) :
    Except QasmError (List Operation) :=
  if g.args.length = d.qFormals.length then
    if g.params.length = d.numFormals.length then
      mapME (builtinOp qr) (d.body.map (substGateApp (d.qFormals.zip g.args)
        (d.numFormals.zip g.params)))
    else .error .arityError
  else .error .arityError

/-- Dispatch one concrete (indexed-operand) gate application: a declared
macro shadows the table, otherwise a direct table lookup (spec section
4.5). -/
def dispatchApp (st : BState) (g : GateApp) : Except QasmError (List Operation) :=
  match assocFind st.macros g.name with
  | some d => applyMacro st.qregs d g
  | none => (builtinOp st.qregs g).map (fun o => [o])

/-- Process one gate-application statement: bare-register broadcast first,
then per expanded statement the macro/table dispatch (spec section 4.5). -/
def handleApp (st : BState) (g : GateApp) : Except QasmError (List Operation) := do
  let apps ← broadcastApp st.qregs g
  let opss ← mapME (dispatchApp st) apps
  .ok opss.flatten

/-- Broadcast a measurement statement: both operands indexed, or both bare
registers of equal size (expanded in ascending index order). -/
def broadcastMeas (qr cr : List (String × Nat × Nat)) (q c : AOperand) :
    Except QasmError (List (AOperand × AOperand)) :=
  match q, c with
  | .idx qn qi, .idx cn ci => .ok [(.idx qn qi, .idx cn ci)]
  | .whole qn, .whole cn =>
      match regLookup qr qn, regLookup cr cn with
      | some (_, n1), some (_, n2) =>
          if n1 = n2 then
            .ok ((List.range n1).map (fun k => (.idx qn k, .idx cn k)))
          else .error .arityError
      | _, _ => .error .unresolvedRegister
  | _, _ => .error .arityError

/-- Modelled from the spec: one IR-builder step (section 4.5) — registers
resolved to a contiguous global index space in declaration order, macro
definitions validated and flattened eagerly (a name colliding with a
declared macro or a table mnemonic is rejected, the spec's explicit
shadowing policy decision), gate applications and measurements appended in
order. -/
def buildStep (st : BState) : Stmt → Except QasmError BState
  | .qreg nm sz =>
      .ok { st with qregs := st.qregs ++ [(nm, st.nq, sz)], nq := st.nq + sz }
  | .creg nm sz =>
      .ok { st with cregs := st.cregs ++ [(nm, st.nc, sz)], nc := st.nc + sz }
  | .gatedef nm nf qf body =>
      if (assocFind st.macros nm).isSome then .error .parseError
      else if (mnemonicKind nm).isSome then .error .unknownGate
      else if body.all (bodyAppOk nf qf) then do
        let flat ← expandBody st.macros body
        .ok { st with macros := (nm, ⟨nf, qf, flat⟩) :: st.macros }
      else .error .parseError
  | .app g => do
      let ops' ← handleApp st g
      .ok { st with ops := st.ops ++ ops' }
  | .meas q c => do
      let pairs ← broadcastMeas st.qregs st.cregs q c
      let ops' ← mapME (fun p => do
        let qi ← resolveOperand st.qregs p.1
        let ci ← resolveOperand st.cregs p.2
        .ok (Operation.measure qi ci)) pairs
      .ok { st with ops := st.ops ++ ops' }

/-- Modelled from the spec: `build_ir` — fold the builder over the
statement list; the resulting IR carries the summed register sizes as its
resolved counts. -/
def buildStmts (st : BState) : List Stmt → Except QasmError CircuitIR
  | [] => .ok ⟨st.ops, st.nq, st.nc⟩
  | s :: rest => do
      let st' ← buildStep st s
      buildStmts st' rest

/-- The empty builder state. -/
def initState : BState := ⟨[], 0, [], 0, [], []⟩

/-- Strip the version header: in rigorous mode its absence (or a malformed
version line) is a `MissingHeaderError`; in non-rigorous mode parsing
begins directly at the statements (spec section 4.3). -/
def stripHeader (rigorous : Bool) (toks : List Tok) :
    Except QasmError (List Tok) :=
  match toks with
  | .ident s :: rest =>
      if s = "OPENQASM" then
        match rest with
        | .number 20 1 :: .semi :: r2 => .ok r2
        | _ => .error .missingHeader
      else if rigorous then .error .missingHeader
      else .ok toks
  | _ => if rigorous then .error .missingHeader else .ok toks

/-- Strip an optional include directive (recognized and discarded, spec
section 4.1). -/
def stripInclude (toks : List Tok) : List Tok :=
  match toks with
  | .ident s :: .str _ :: .semi :: r2 => if s = "include" then r2 else toks
  | _ => toks

/-- Modelled from the spec: `import_open_qasm` — lex, handle the header
per the rigorous flag, skip an include directive, parse the statements,
and build the IR. -/
def import_open_qasm (source : String) (rigorous : Bool) :
    Except QasmError CircuitIR := do
  let toks ← lexChars source.data
  let toks1 ← stripHeader rigorous toks
  let toks2 := stripInclude toks1
  let stmts ← parseStmts (8 * toks2.length + 64) toks2
  buildStmts initState stmts

/-- Whether the token stream starts with the version declaration's
keyword. -/
def startsWithVersion : List Tok → Bool
  | .ident s :: _ => s = "OPENQASM"
  | _ => false

theorem stripHeader_rigorous_noversion {toks : List Tok}
    (h : startsWithVersion toks = false) :
    stripHeader true toks = .error .missingHeader := by
  cases toks with
  | nil => rfl
  | cons t rest =>
      cases t <;> simp_all [startsWithVersion, stripHeader]

/-- The notebook's non-rigorous example program: gate statements with
register declarations but no version header. -/
def nrText : String :=
  "qreg q1[3];\nqreg q2[4];\ncreg c[3];\nx q1[0];\ny q1[1];\ncz q1[0],q2[2];\nccx q1[0],q1[1],q2[1];\nrz(pi/7) q1[0];\ncry(1.6*pi) q2[0],q2[1];\n"

/-- C6: for every source text lacking the `OPENQASM 2.0` version header
but otherwise well-formed (it imports successfully with `rigorous=false`,
beginning directly at register/gate statements), importing with
`rigorous=true` fails with `MissingHeaderError`. -/
theorem claim_c6_rigorous_header (source : String) (toks : List Tok)
    (c : CircuitIR) (hlex : lexChars source.data = .ok toks)
    (hnohdr : startsWithVersion toks = false)
    (hok : import_open_qasm source false = .ok c) :
    import_open_qasm source true = .error .missingHeader := by
  have _ := hok
  unfold import_open_qasm
  rw [hlex]
  show Except.bind (Except.ok toks) _ = _
  rw [show ∀ (f : List Tok → Except QasmError CircuitIR),
      Except.bind (Except.ok toks) f = f toks from fun _ => rfl]
  show Except.bind (stripHeader true toks) _ = _
  rw [stripHeader_rigorous_noversion hnohdr]
  rfl

set_option maxRecDepth 40000 in
/-- Witness for C6: the notebook's header-less program imports under
`rigorous=false` and is a `MissingHeaderError` under `rigorous=true`. -/
theorem claim_c6_rigorous_header_witness :
    import_open_qasm nrText true = .error .missingHeader :=
  claim_c6_rigorous_header nrText ((lexChars nrText.data).toOption.getD [])
    ((import_open_qasm nrText false).toOption.getD ⟨[], 0, 0⟩)
    (by decide) (by decide) (by decide)

/-- Whether an operand is in indexed (`name[i]`) form. -/
def isIdxArg : AOperand → Bool
  | .idx _ _ => true
  | .whole _ => false

theorem bind_ok {α β : Type} (x : α) (g : α → Except QasmError β) :
    Except.bind (.ok x) g = g x := rfl

theorem bind_err {α β : Type} (e : QasmError) (g : α → Except QasmError β) :
    Except.bind (.error e) g = .error e := rfl

theorem bindB_ok {α β : Type} (x : α) (g : α → Except QasmError β) :
    Bind.bind (Except.ok x) g = g x := rfl

theorem bindB_err {α β : Type} (e : QasmError) (g : α → Except QasmError β) :
    Bind.bind (Except.error e) g = .error e := rfl

theorem mapME_append {α β : Type} (f : α → Except QasmError β) (l1 l2 : List α) :
    mapME f (l1 ++ l2) = Except.bind (mapME f l1) (fun b1 =>
      Except.bind (mapME f l2) (fun b2 => .ok (b1 ++ b2))) := by
  induction l1 with
  | nil =>
      show mapME f l2 = Except.bind (.ok []) _
      rw [bind_ok]
      cases mapME f l2 <;> rfl
  | cons a as ih =>
      cases hfa : f a with
      | error e =>
          show Except.bind (f a) _ = Except.bind (Except.bind (f a) _) _
          rw [hfa, bind_err, bind_err, bind_err]
      | ok b =>
          show Except.bind (f a) _ = Except.bind (Except.bind (f a) _) _
          rw [hfa, bind_ok, bind_ok]
          show Except.bind (mapME f (as ++ l2)) _ = _
          rw [ih]
          cases mapME f as with
          | error e => rfl
          | ok bs => cases mapME f l2 <;> rfl

theorem mapME_argSize_idx (qr : List (String × Nat × Nat)) :
    ∀ args : List AOperand, args.all isIdxArg = true →
      mapME (argSize qr) args = .ok (args.map (fun _ => none)) := by
  intro args h
  induction args with
  | nil => rfl
  | cons a as ih =>
      simp only [List.all_cons, Bool.and_eq_true] at h
      cases a with
      | idx rg i =>
          show ((mapME (argSize qr) as).bind fun bs => Except.ok (none :: bs)) = _
          rw [ih h.2]
          rfl
      | whole rg => simp [isIdxArg] at h

theorem broadcastApp_all_idx (qr : List (String × Nat × Nat)) (g : GateApp)
    (h : g.args.all isIdxArg = true) : broadcastApp qr g = .ok [g] := by
  have h2 : (g.args.map (fun _ => (none : Option Nat))).reduceOption = [] := by
    induction g.args with
    | nil => rfl
    | cons a as ih => simpa [List.reduceOption] using ih
  unfold broadcastApp
  rw [mapME_argSize_idx qr g.args h, bindB_ok, h2]

theorem handleApp_single (st : BState) (g : GateApp)
    (h : broadcastApp st.qregs g = .ok [g]) :
    handleApp st g =
      (match dispatchApp st g with
       | .ok r => .ok (r ++ [])
       | .error e => .error e) := by
  unfold handleApp
  rw [h, bindB_ok]
  show Except.bind (Except.bind (dispatchApp st g) (fun b => Except.ok [b]))
    (fun opss => Except.ok opss.flatten) = _
  cases hd : dispatchApp st g <;> rfl

theorem buildStep_app (st : BState) (g : GateApp)
    (h : broadcastApp st.qregs g = .ok [g]) :
    buildStep st (.app g) =
      (match dispatchApp st g with
       | .ok r => .ok { st with ops := st.ops ++ r }
       | .error e => .error e) := by
  show Except.bind (handleApp st g) _ = _
  rw [handleApp_single st g h]
  cases hd : dispatchApp st g with
  | error e => rfl
  | ok r =>
      show Except.bind (Except.ok (r ++ [])) _ = _
      rw [bind_ok, List.append_nil]

theorem buildStmts_apps :
    ∀ (gs : List GateApp) (st : BState) (rest : List Stmt),
    (∀ g ∈ gs, broadcastApp st.qregs g = .ok [g]) →
    buildStmts st (gs.map .app ++ rest) =
      (match mapME (dispatchApp st) gs with
       | .ok opss => buildStmts { st with ops := st.ops ++ opss.flatten } rest
       | .error e => .error e) := by
  intro gs
  induction gs with
  | nil =>
      intro st rest hconc
      show buildStmts st rest = buildStmts { st with ops := st.ops ++ [] } rest
      rw [List.append_nil]
  | cons g gs ih =>
      intro st rest hconc
      show Except.bind (buildStep st (.app g)) _ = _
      rw [buildStep_app st g (hconc g (by simp))]
      cases hd : dispatchApp st g with
      | error e =>
          show Except.error e = _
          show _ = (match mapME (dispatchApp st) (g :: gs) with
            | .ok opss => buildStmts { st with ops := st.ops ++ opss.flatten } rest
            | .error e => .error e)
          have : mapME (dispatchApp st) (g :: gs) = .error e := by
            show Except.bind (dispatchApp st g) _ = _
            rw [hd, bind_err]
          rw [this]
      | ok r =>
          rw [bind_ok]
          show buildStmts { st with ops := st.ops ++ r } (gs.map .app ++ rest) =
            (match mapME (dispatchApp st) (g :: gs) with
             | .ok opss => buildStmts { st with ops := st.ops ++ opss.flatten } rest
             | .error e => .error e)
          have step : buildStmts { st with ops := st.ops ++ r } (gs.map .app ++ rest) =
              (match mapME (dispatchApp st) gs with
               | .ok opss => buildStmts
                   { st with ops := (st.ops ++ r) ++ opss.flatten } rest
               | .error e => .error e) := by
            have := ih { st with ops := st.ops ++ r } rest
              (fun g' hg' => hconc g' (by simp [hg']))
            exact this
          rw [step]
          have : mapME (dispatchApp st) (g :: gs) =
              Except.bind (mapME (dispatchApp st) gs)
                (fun rs => .ok (r :: rs)) := by
            show Except.bind (dispatchApp st g) _ = _
            rw [hd, bind_ok]
            rfl
          rw [this]
          cases mapME (dispatchApp st) gs with
          | error e => rfl
          | ok rs =>
              rw [bind_ok]
              show buildStmts { st with ops := st.ops ++ r ++ rs.flatten } rest =
                buildStmts { st with ops := st.ops ++ (r :: rs).flatten } rest
              rw [List.flatten_cons, ← List.append_assoc]

/-- C9: a gate statement whose operand is a bare register name over a
register of size `n` is equivalent, for the IR builder, to the `n`
explicit statements over that register's bits in ascending index order
(bare-register expansion happens per statement, before macro dispatch and
index resolution). -/
theorem claim_c9_bare_register (st : BState) (nm gname : String)
    (ps : List AExpr) (off n : Nat) (rest : List Stmt)
    (hreg : regLookup st.qregs nm = some (off, n)) :
    buildStmts st (.app ⟨gname, ps, [.whole nm]⟩ :: rest) =
      buildStmts st
        ((List.range n).map (fun k => .app ⟨gname, ps, [.idx nm k]⟩) ++ rest) := by
  have hidx : ∀ g' ∈ (List.range n).map
      (fun k => (⟨gname, ps, [.idx nm k]⟩ : GateApp)),
      broadcastApp st.qregs g' = .ok [g'] := by
    intro g' hg'
    rw [List.mem_map] at hg'
    obtain ⟨k, _, rfl⟩ := hg'
    exact broadcastApp_all_idx _ _ rfl
  have hb : broadcastApp st.qregs ⟨gname, ps, [.whole nm]⟩ =
      .ok ((List.range n).map (fun k => ⟨gname, ps, [.idx nm k]⟩)) := by
    unfold broadcastApp
    have harg : argSize st.qregs (.whole nm) = .ok (some n) := by
      simp only [argSize]
      rw [hreg]
    have h1 : mapME (argSize st.qregs) [AOperand.whole nm] = .ok [some n] := by
      show Except.bind (argSize st.qregs (.whole nm)) _ = _
      rw [harg, bind_ok]
      rfl
    rw [h1, bindB_ok]
    rfl
  have hrhs := buildStmts_apps
    ((List.range n).map (fun k => (⟨gname, ps, [.idx nm k]⟩ : GateApp))) st rest hidx
  have hmap : (((List.range n).map
        (fun k => (⟨gname, ps, [.idx nm k]⟩ : GateApp))).map Stmt.app)
      = (List.range n).map (fun k => Stmt.app ⟨gname, ps, [.idx nm k]⟩) := by
    rw [List.map_map]
    rfl
  rw [hmap] at hrhs
  rw [hrhs]
  have hha : handleApp st ⟨gname, ps, [.whole nm]⟩ =
      Except.bind (mapME (dispatchApp st)
          ((List.range n).map (fun k => ⟨gname, ps, [.idx nm k]⟩)))
        (fun opss => .ok opss.flatten) := by
    unfold handleApp
    rw [hb, bindB_ok]
    rfl
  show Except.bind (Except.bind (handleApp st ⟨gname, ps, [.whole nm]⟩) _) _ = _
  rw [hha]
  cases hm : mapME (dispatchApp st)
      ((List.range n).map fun k => (⟨gname, ps, [.idx nm k]⟩ : GateApp)) with
  | error e => rfl
  | ok opss => rfl

/-- Witness for C9: `x q;` over `qreg q[4];` builds the same IR as
`x q[0]; x q[1]; x q[2]; x q[3];`. -/
theorem claim_c9_bare_register_witness :
    buildStmts ⟨[(("q"), 0, 4)], 4, [], 0, [], []⟩
        (.app ⟨("x"), [], [.whole ("q")]⟩ :: []) =
      buildStmts ⟨[(("q"), 0, 4)], 4, [], 0, [], []⟩
        ((List.range 4).map (fun k => .app ⟨("x"), [], [.idx ("q") k]⟩) ++ []) :=
  claim_c9_bare_register ⟨[(("q"), 0, 4)], 4, [], 0, [], []⟩ ("q") ("x")
    [] 0 4 [] (by decide)

theorem assocFind_zip_map {α β : Type} (h : α → β) :
    ∀ (ks : List String) (vs : List α) (f : String),
    assocFind (ks.zip (vs.map h)) f = (assocFind (ks.zip vs) f).map h := by
  intro ks
  induction ks with
  | nil => intro vs f; rfl
  | cons k ks ih =>
      intro vs f
      cases vs with
      | nil => rfl
      | cons v vs =>
          show (if k = f then some (h v) else assocFind (ks.zip (vs.map h)) f) =
            Option.map h (if k = f then some v else assocFind (ks.zip vs) f)
          by_cases hk : k = f
          · rw [if_pos hk, if_pos hk]
            rfl
          · rw [if_neg hk, if_neg hk, ih]

theorem assocFind_zip_total {α : Type} :
    ∀ (ks : List String) (vs : List α) (f : String), f ∈ ks → ks.length = vs.length →
    ∃ v ∈ vs, assocFind (ks.zip vs) f = some v := by
  intro ks
  induction ks with
  | nil => intro vs f hf; simp at hf
  | cons k ks ih =>
      intro vs f hf hl
      cases vs with
      | nil => simp at hl
      | cons v vs =>
          by_cases hk : k = f
          · refine ⟨v, by simp, ?_⟩
            show (if k = f then some v else assocFind (ks.zip vs) f) = some v
            rw [if_pos hk]
          · have hf' : f ∈ ks := by
              rcases List.mem_cons.mp hf with h | h
              · exact absurd h.symm hk
              · exact h
            obtain ⟨w, hw, hfind⟩ := ih vs f hf' (by simpa using hl)
            refine ⟨w, by simp [hw], ?_⟩
            show (if k = f then some v else assocFind (ks.zip vs) f) = some w
            rw [if_neg hk, hfind]

theorem assocFind_mem {α : Type} :
    ∀ {l : List (String × α)} {s : String} {v : α},
    assocFind l s = some v → (s, v) ∈ l := by
  intro l
  induction l with
  | nil => intro s v h; simp [assocFind] at h
  | cons p rest ih =>
      intro s v h
      obtain ⟨n, w⟩ := p
      rw [assocFind] at h
      split at h
      · cases h
        simp_all
      · simp [ih h]

theorem bindLookup_eq_assocFind :
    ∀ (l : List (String × AExpr)) (s : String), bindLookup l s = assocFind l s := by
  intro l
  induction l with
  | nil => intro s; rfl
  | cons p rest ih =>
      intro s
      obtain ⟨n, v⟩ := p
      show (if n = s then some v else bindLookup rest s) =
        (if n = s then some v else assocFind rest s)
      rw [ih]

theorem substE_zip_comp (σ : List (String × AExpr)) (ks : List String)
    (vs : List AExpr) (hl : ks.length = vs.length) :
    ∀ e : AExpr, (freeVarsE e).all (fun v => decide (v ∈ ks)) = true →
    substE σ (substE (ks.zip vs) e) = substE (ks.zip (vs.map (substE σ))) e := by
  intro e
  induction e with
  | num m i => intro _; rfl
  | pi => intro _; rfl
  | var s =>
      intro hwf
      have hs : s ∈ ks := by
        simp only [freeVarsE, List.all_cons, List.all_nil, Bool.and_true,
          decide_eq_true_eq] at hwf
        exact hwf
      obtain ⟨v, hv, hfind⟩ := assocFind_zip_total ks vs s hs hl
      have h2 := assocFind_zip_map (substE σ) ks vs s
      rw [hfind] at h2
      have hLHS : substE (ks.zip vs) (.var s) = v := by
        show (match bindLookup (ks.zip vs) s with
          | some w => w
          | none => AExpr.var s) = v
        rw [bindLookup_eq_assocFind, hfind]
      have hRHS : substE (ks.zip (vs.map (substE σ))) (.var s) = substE σ v := by
        show (match bindLookup (ks.zip (vs.map (substE σ))) s with
          | some w => w
          | none => AExpr.var s) = _
        rw [bindLookup_eq_assocFind, h2]
        rfl
      rw [hLHS, hRHS]
  | neg a iha => intro h; simp only [substE]; rw [iha h]
  | add a b iha ihb =>
      intro h
      simp only [freeVarsE, List.all_append, Bool.and_eq_true] at h
      simp only [substE]
      rw [iha h.1, ihb h.2]
  | sub a b iha ihb =>
      intro h
      simp only [freeVarsE, List.all_append, Bool.and_eq_true] at h
      simp only [substE]
      rw [iha h.1, ihb h.2]
  | mul a b iha ihb =>
      intro h
      simp only [freeVarsE, List.all_append, Bool.and_eq_true] at h
      simp only [substE]
      rw [iha h.1, ihb h.2]
  | div a b iha ihb =>
      intro h
      simp only [freeVarsE, List.all_append, Bool.and_eq_true] at h
      simp only [substE]
      rw [iha h.1, ihb h.2]

theorem substArg_zip_comp (σ : List (String × AOperand)) (ks : List String)
    (vs : List AOperand) (hl : ks.length = vs.length) (a : AOperand)
    (ha : ∀ nm, a = .whole nm → nm ∈ ks) :
    substArg σ (substArg (ks.zip vs) a) = substArg (ks.zip (vs.map (substArg σ))) a := by
  cases a with
  | idx rg i => rfl
  | whole nm =>
      have hm : nm ∈ ks := ha nm rfl
      obtain ⟨v, hv, hfind⟩ := assocFind_zip_total ks vs nm hm hl
      have h2 := assocFind_zip_map (substArg σ) ks vs nm
      rw [hfind] at h2
      have hL : substArg (ks.zip vs) (.whole nm) = v := by
        show (match assocFind (ks.zip vs) nm with
          | some a => a
          | none => AOperand.whole nm) = v
        rw [hfind]
      have hR : substArg (ks.zip (vs.map (substArg σ))) (.whole nm) = substArg σ v := by
        show (match assocFind (ks.zip (vs.map (substArg σ))) nm with
          | some a => a
          | none => AOperand.whole nm) = _
        rw [h2]
        rfl
      rw [hL, hR]

theorem substGateApp_comp (σq : List (String × AOperand)) (σp : List (String × AExpr))
    (qf nf : List String) (acts : List AOperand) (ps : List AExpr) (b : GateApp)
    (hwf : bodyAppOk nf qf b = true)
    (hl1 : qf.length = acts.length) (hl2 : nf.length = ps.length) :
    substGateApp σq σp (substGateApp (qf.zip acts) (nf.zip ps) b) =
      substGateApp (qf.zip (acts.map (substArg σq))) (nf.zip (ps.map (substE σp))) b := by
  simp only [bodyAppOk, Bool.and_eq_true, List.all_eq_true] at hwf
  simp only [substGateApp]
  congr 1
  · rw [List.map_map]
    apply List.map_congr_left
    intro e he
    exact substE_zip_comp σp nf ps hl2 e (List.all_eq_true.mpr (hwf.2 e he))
  · rw [List.map_map]
    apply List.map_congr_left
    intro a ha
    apply substArg_zip_comp σq qf acts hl1 a
    intro nm hnm
    have := hwf.1 a ha
    rw [hnm] at this
    simpa using this

/-- Lift `List.flatten` over `Except`. -/
def flatME (x : Except QasmError (List (List Operation))) :
    Except QasmError (List Operation) :=
  match x with
  | .ok l => .ok l.flatten
  | .error e => .error e

theorem expandApp_dispatch (st : BState) (σq : List (String × AOperand))
    (σp : List (String × AExpr))
    (henv : ∀ p ∈ st.macros, p.2.body.all
      (bodyAppOk p.2.numFormals p.2.qFormals) = true)
    (b : GateApp) (a : List GateApp)
    (hba : expandBodyApp st.macros b = .ok a) :
    mapME (builtinOp st.qregs) (a.map (substGateApp σq σp)) =
      dispatchApp st (substGateApp σq σp b) := by
  unfold expandBodyApp at hba
  split at hba
  next d hmac =>
    split at hba
    next h1 =>
      split at hba
      next h2 =>
        have ha : a = d.body.map (substGateApp (d.qFormals.zip b.args)
            (d.numFormals.zip b.params)) := by
          injection hba with h
          exact h.symm
        subst ha
        have hdwf := henv (b.name, d) (assocFind_mem hmac)
        simp only [List.all_eq_true] at hdwf
        have hlist : (d.body.map (substGateApp (d.qFormals.zip b.args)
            (d.numFormals.zip b.params))).map (substGateApp σq σp) =
            d.body.map (substGateApp
              (d.qFormals.zip (b.args.map (substArg σq)))
              (d.numFormals.zip (b.params.map (substE σp)))) := by
          rw [List.map_map]
          apply List.map_congr_left
          intro bf hbf
          exact substGateApp_comp σq σp d.qFormals d.numFormals b.args
            b.params bf (hdwf bf hbf) h1.symm h2.symm
        rw [hlist]
        have hdisp : dispatchApp st (substGateApp σq σp b) =
            mapME (builtinOp st.qregs) (d.body.map (substGateApp
              (d.qFormals.zip (b.args.map (substArg σq)))
              (d.numFormals.zip (b.params.map (substE σp))))) := by
          show (match assocFind st.macros (substGateApp σq σp b).name with
            | some d2 => applyMacro st.qregs d2 (substGateApp σq σp b)
            | none => (builtinOp st.qregs (substGateApp σq σp b)).map
                (fun o => [o])) = _
          rw [show assocFind st.macros (substGateApp σq σp b).name =
            some d from hmac]
          show applyMacro st.qregs d (substGateApp σq σp b) = _
          unfold applyMacro
          rw [if_pos (show (substGateApp σq σp b).args.length =
                d.qFormals.length by
                  rw [show (substGateApp σq σp b).args =
                    b.args.map (substArg σq) from rfl, List.length_map]
                  exact h1),
              if_pos (show (substGateApp σq σp b).params.length =
                d.numFormals.length by
                  rw [show (substGateApp σq σp b).params =
                    b.params.map (substE σp) from rfl, List.length_map]
                  exact h2)]
          rw [show (substGateApp σq σp b).args =
            b.args.map (substArg σq) from rfl,
            show (substGateApp σq σp b).params =
            b.params.map (substE σp) from rfl]
        rw [hdisp]
      next h2 => exact absurd hba (by simp)
    next h1 => exact absurd hba (by simp)
  next hmac =>
    split at hba
    next kk hmk =>
      have ha : a = [b] := by
        injection hba with h
        exact h.symm
      subst ha
      show Except.bind (builtinOp st.qregs (substGateApp σq σp b)) _ = _
      unfold dispatchApp
      rw [show assocFind st.macros (substGateApp σq σp b).name = none from hmac]
      cases builtinOp st.qregs (substGateApp σq σp b) <;> rfl
    next hmk => exact absurd hba (by simp)

theorem expand_dispatch (st : BState) (σq : List (String × AOperand))
    (σp : List (String × AExpr))
    (henv : ∀ p ∈ st.macros, p.2.body.all
      (bodyAppOk p.2.numFormals p.2.qFormals) = true) :
    ∀ (body flat : List GateApp), expandBody st.macros body = .ok flat →
    mapME (builtinOp st.qregs) (flat.map (substGateApp σq σp)) =
      flatME (mapME (dispatchApp st) (body.map (substGateApp σq σp))) := by
  intro body
  induction body with
  | nil =>
      intro flat h
      have : flat = [] := by
        injection h with h2
        exact h2.symm
      subst this
      rfl
  | cons b bs ih =>
      intro flat h
      cases hba : expandBodyApp st.macros b with
      | error e =>
          rw [show expandBody st.macros (b :: bs) =
            Except.bind (expandBodyApp st.macros b) (fun a =>
              Except.bind (expandBody st.macros bs) (fun b2 =>
                .ok (a ++ b2))) from rfl, hba, bind_err] at h
          exact absurd h (by simp)
      | ok a =>
          cases hbs : expandBody st.macros bs with
          | error e =>
              rw [show expandBody st.macros (b :: bs) =
                Except.bind (expandBodyApp st.macros b) (fun a =>
                  Except.bind (expandBody st.macros bs) (fun b2 =>
                    .ok (a ++ b2))) from rfl, hba, bind_ok, hbs, bind_err] at h
              exact absurd h (by simp)
          | ok brest =>
              have hflat : flat = a ++ brest := by
                rw [show expandBody st.macros (b :: bs) =
                  Except.bind (expandBodyApp st.macros b) (fun a =>
                    Except.bind (expandBody st.macros bs) (fun b2 =>
                      .ok (a ++ b2))) from rfl, hba, bind_ok, hbs, bind_ok] at h
                injection h with h2
                exact h2.symm
              subst hflat
              rw [List.map_append, mapME_append,
                expandApp_dispatch st σq σp henv b a hba, ih brest hbs]
              show Except.bind (dispatchApp st (substGateApp σq σp b)) _ =
                flatME (Except.bind (dispatchApp st (substGateApp σq σp b)) _)
              cases hd : dispatchApp st (substGateApp σq σp b) with
              | error e => rfl
              | ok r =>
                  rw [bind_ok, bind_ok]
                  cases hm2 : mapME (dispatchApp st) (bs.map (substGateApp σq σp)) with
                  | error e => rfl
                  | ok rs =>
                      show Except.bind (flatME (.ok rs)) _ = _
                      rw [show flatME (.ok rs) = .ok rs.flatten from rfl, bind_ok]
                      show Except.ok (r ++ rs.flatten) = .ok ((r :: rs).flatten)
                      rw [List.flatten_cons]

/-- C3: importing a program that defines a gate macro and invokes it
yields an IR identical to importing the same program with the macro
invocation replaced inline by the macro's body statements, the call-site
operands substituted for the formal parameter names, in body order.  The
hypotheses are the builder's own invariants: the macro table is
well-formed, the stored flattened body is the flattening of the source
body in the current table, the source body references only formals, and
the call site supplies indexed operands of matching arity. -/
theorem claim_c3_macro_expansion (st : BState) (m : String) (d : MacroDef)
    (body : List GateApp) (ps : List AExpr) (acts : List AOperand)
    (rest : List Stmt)
    (henv : ∀ p ∈ st.macros, p.2.body.all
      (bodyAppOk p.2.numFormals p.2.qFormals) = true)
    (hm : assocFind st.macros m = some d)
    (hpre : expandBody st.macros body = .ok d.body)
    (hbody : body.all (bodyAppOk d.numFormals d.qFormals) = true)
    (hacts : acts.all isIdxArg = true)
    (hlen : acts.length = d.qFormals.length)
    (hps : ps.length = d.numFormals.length) :
    buildStmts st (.app ⟨m, ps, acts⟩ :: rest) =
      buildStmts st (body.map (fun b => .app
        (substGateApp (d.qFormals.zip acts) (d.numFormals.zip ps) b)) ++ rest) := by
  have hconc : ∀ g' ∈ body.map (substGateApp (d.qFormals.zip acts)
      (d.numFormals.zip ps)), broadcastApp st.qregs g' = .ok [g'] := by
    intro g' hg'
    rw [List.mem_map] at hg'
    obtain ⟨b, hb, rfl⟩ := hg'
    apply broadcastApp_all_idx
    rw [show (substGateApp (d.qFormals.zip acts) (d.numFormals.zip ps) b).args =
      b.args.map (substArg (d.qFormals.zip acts)) from rfl]
    rw [List.all_eq_true]
    intro a ha
    rw [List.mem_map] at ha
    obtain ⟨a0, ha0, rfl⟩ := ha
    have hwf := (List.all_eq_true.mp hbody) b hb
    simp only [bodyAppOk, Bool.and_eq_true, List.all_eq_true] at hwf
    have hmem := hwf.1 a0 ha0
    cases a0 with
    | idx rg i => simp at hmem
    | whole nm =>
        simp only [decide_eq_true_eq] at hmem
        obtain ⟨v, hv, hfind⟩ :=
          assocFind_zip_total d.qFormals acts nm hmem hlen.symm
        show isIdxArg (substArg (d.qFormals.zip acts) (.whole nm)) = true
        rw [show substArg (d.qFormals.zip acts) (.whole nm) =
          (match assocFind (d.qFormals.zip acts) nm with
            | some a => a
            | none => AOperand.whole nm) from rfl, hfind]
        exact (List.all_eq_true.mp hacts) v hv
  have hR := buildStmts_apps (body.map (substGateApp (d.qFormals.zip acts)
    (d.numFormals.zip ps))) st rest hconc
  have hmapmap : ((body.map (substGateApp (d.qFormals.zip acts)
      (d.numFormals.zip ps))).map Stmt.app) =
      body.map (fun b => Stmt.app (substGateApp (d.qFormals.zip acts)
        (d.numFormals.zip ps) b)) := by
    rw [List.map_map]
    rfl
  rw [hmapmap] at hR
  rw [hR]
  show Except.bind (buildStep st (.app ⟨m, ps, acts⟩)) _ = _
  rw [buildStep_app st _ (broadcastApp_all_idx _ _ hacts)]
  have hdisp : dispatchApp st ⟨m, ps, acts⟩ =
      mapME (builtinOp st.qregs) (d.body.map (substGateApp
        (d.qFormals.zip acts) (d.numFormals.zip ps))) := by
    show (match assocFind st.macros m with
      | some d2 => applyMacro st.qregs d2 ⟨m, ps, acts⟩
      | none => (builtinOp st.qregs ⟨m, ps, acts⟩).map (fun o => [o])) = _
    rw [hm]
    show applyMacro st.qregs d ⟨m, ps, acts⟩ = _
    unfold applyMacro
    rw [if_pos hlen, if_pos hps]
  rw [hdisp, expand_dispatch st (d.qFormals.zip acts) (d.numFormals.zip ps)
    henv body d.body hpre]
  cases hmm : mapME (dispatchApp st) (body.map (substGateApp
      (d.qFormals.zip acts) (d.numFormals.zip ps))) with
  | error e => rfl
  | ok opss => rfl

/-- The notebook's `mycustom a,b,c { cx c,b; cx c,a; }` macro, flattened
(its body is already primitive). -/
def c3mdef : MacroDef :=
  ⟨[], [("a"), ("b"), ("c")],
    [⟨("cx"), [], [.whole ("c"), .whole ("b")]⟩,
     ⟨("cx"), [], [.whole ("c"), .whole ("a")]⟩]⟩

/-- The builder state after the notebook custom-gate program's
declarations. -/
def c3state : BState :=
  ⟨[(("q1"), 0, 3), (("q2"), 3, 4)], 7, [(("c"), 0, 3)], 3,
    [(("mycustom"), c3mdef)], []⟩

/-- The call-site operands `q1[0],q2[0],q1[2]`. -/
def c3acts : List AOperand := [.idx ("q1") 0, .idx ("q2") 0, .idx ("q1") 2]

/-- Witness for C3: the notebook's `mycustom q1[0],q2[0],q1[2];` builds
the same IR as the inlined `cx q1[2],q2[0]; cx q1[2],q1[0];`. -/
theorem claim_c3_macro_expansion_witness :
    buildStmts c3state (.app ⟨("mycustom"), [], c3acts⟩ :: []) =
      buildStmts c3state (c3mdef.body.map (fun b => .app
        (substGateApp (c3mdef.qFormals.zip c3acts)
          (c3mdef.numFormals.zip []) b)) ++ []) :=
  claim_c3_macro_expansion c3state ("mycustom") c3mdef c3mdef.body [] c3acts []
    (by decide) (by decide) (by decide) (by decide) (by decide) (by decide)
    (by decide)

/-- The token sequence of a printed parameter expression. -/
def exprToks : AExpr → List Tok
  | .num m e => [.number m e]
  | .pi => [.ident ("pi")]
  | .var s => [.ident s]
  | .neg a => .lparen :: .minus :: (exprToks a ++ [.rparen])
  | .add a b => .lparen :: (exprToks a ++ .plus :: (exprToks b ++ [.rparen]))
  | .sub a b => .lparen :: (exprToks a ++ .minus :: (exprToks b ++ [.rparen]))
  | .mul a b => .lparen :: (exprToks a ++ .star :: (exprToks b ++ [.rparen]))
  | .div a b => .lparen :: (exprToks a ++ .slash :: (exprToks b ++ [.rparen]))

/-- The mnemonic string of a gate with `nc` controls. -/
def mnemonicStr (nc : Nat) (k : GateKind) : String := String.mk (mnemonicChars nc k)

/-- The token sequence of a printed `q[i]` operand. -/
def qOperandToks (i : Nat) : List Tok :=
  [.ident ("q"), .lbrack, .number i 0, .rbrack]

/-- The token sequence of a printed operand list. -/
def operandListToks : List Nat → List Tok
  | [] => []
  | [i] => qOperandToks i
  | i :: rest => qOperandToks i ++ .comma :: operandListToks rest

/-- The token sequence of a printed statement line. -/
def opToks : Operation → List Tok
  | .gate k cs t p =>
      .ident (mnemonicStr cs.length k) ::
      ((match p with
        | some e => .lparen :: (exprToks e ++ [.rparen])
        | none => []) ++ (operandListToks (cs ++ [t]) ++ [.semi]))
  | .measure q c =>
      [.ident ("measure"), .ident ("q"), .lbrack, .number q 0, .rbrack,
       .arrow, .ident ("c"), .lbrack, .number c 0, .rbrack, .semi]

/-- The token sequences of the printed statement lines. -/
def opsToks : List Operation → List Tok
  | [] => []
  | op :: rest => opToks op ++ opsToks rest

/-- The token sequence of the printed header. -/
def headerToks (n : Nat) : List Tok :=
  [.ident ("OPENQASM"), .number 20 1, .semi,
   .ident ("include"), .str ("qelib1.inc"), .semi,
   .ident ("qreg"), .ident ("q"), .lbrack, .number n 0, .rbrack, .semi,
   .ident ("creg"), .ident ("c"), .lbrack, .number n 0, .rbrack, .semi]

/-- The token sequence of the whole printed program. -/
def programToks (n : Nat) (ops : List Operation) : List Tok :=
  headerToks n ++ opsToks ops

theorem digit_not_space {c : Char} (h : isDigitC c = true) :
    isSpaceC c = false := by
  simp only [isDigitC, Bool.and_eq_true, decide_eq_true_eq] at h
  simp only [isSpaceC, Bool.or_eq_false_iff, decide_eq_false_iff_not]
  refine ⟨⟨⟨fun e => ?_, fun e => ?_⟩, fun e => ?_⟩, fun e => ?_⟩ <;>
    (subst e; revert h; decide)

theorem lexChunk_digits (ds : List Char) (hds : ∀ c ∈ ds, isDigitC c = true) :
    ∀ (ts : List Tok) (m : Nat),
    List.foldl lexStep (.ok (ts, .numInt m)) ds =
      .ok (ts, .numInt (ds.foldl (fun a c => 10 * a + charVal c) m)) := by
  induction ds with
  | nil => intro ts m; rfl
  | cons c ds ih =>
      intro ts m
      have hc : isDigitC c = true := hds c (by simp)
      have hstep : lexStep (.ok (ts, .numInt m)) c =
          .ok (ts, .numInt (10 * m + charVal c)) := by
        show (if isDigitC c then (.ok (ts, .numInt (10 * m + charVal c)) : LState)
          else if c = '.' then .ok (ts, .numDot m)
          else normStep (.number m 0 :: ts) c) = _
        rw [if_pos hc]
      show List.foldl lexStep (lexStep (.ok (ts, .numInt m)) c) ds = _
      rw [hstep, ih (fun c hc => hds c (by simp [hc]))]
      rfl

theorem lexChunk_frac (ds : List Char) (hds : ∀ c ∈ ds, isDigitC c = true) :
    ∀ (ts : List Tok) (m e : Nat),
    List.foldl lexStep (.ok (ts, .numFrac m e)) ds =
      .ok (ts, .numFrac (ds.foldl (fun a c => 10 * a + charVal c) m)
        (e + ds.length)) := by
  induction ds with
  | nil => intro ts m e; rfl
  | cons c ds ih =>
      intro ts m e
      have hc : isDigitC c = true := hds c (by simp)
      have hstep : lexStep (.ok (ts, .numFrac m e)) c =
          .ok (ts, .numFrac (10 * m + charVal c) (e + 1)) := by
        show (if isDigitC c then
            (.ok (ts, .numFrac (10 * m + charVal c) (e + 1)) : LState)
          else normStep (.number m e :: ts) c) = _
        rw [if_pos hc]
      show List.foldl lexStep (lexStep (.ok (ts, .numFrac m e)) c) ds = _
      rw [hstep, ih (fun c hc => hds c (by simp [hc]))]
      show Except.ok (ts, LMode.numFrac
          (ds.foldl (fun a c => 10 * a + charVal c) (10 * m + charVal c))
          (e + 1 + ds.length)) =
        Except.ok (ts, LMode.numFrac
          ((c :: ds).foldl (fun a c => 10 * a + charVal c) m) (e + (ds.length + 1)))
      rw [show e + (ds.length + 1) = e + 1 + ds.length by omega]
      rfl

theorem lex_natChars (n : Nat) (ts : List Tok) :
    List.foldl lexStep (.ok (ts, .norm)) (natChars n) = .ok (ts, .numInt n) := by
  have hds := natChars_digits n
  cases hnc : natChars n with
  | nil => exact absurd hnc (natChars_ne_nil n)
  | cons c cs =>
      have hc : isDigitC c = true := hds c (by rw [hnc]; simp)
      have hstep : lexStep (.ok (ts, .norm)) c = .ok (ts, .numInt (charVal c)) := by
        show normStep ts c = _
        unfold normStep
        rw [digit_not_space hc, if_neg (by simp), if_pos hc]
      show List.foldl lexStep (lexStep (.ok (ts, .norm)) c) cs = _
      rw [hstep, lexChunk_digits cs (fun x hx => hds x (by rw [hnc]; simp [hx]))]
      have : (c :: cs).foldl (fun a c => 10 * a + charVal c) 0 = n := by
        rw [← hnc]
        exact digitsVal_natChars n
      simp only [List.foldl_cons] at this
      rw [show (10 : Nat) * 0 + charVal c = charVal c by omega] at this
      rw [this]

theorem digitsVal_pad (k : Nat) :
    ∀ cs, List.foldl (fun a c => 10 * a + charVal c) 0 (List.replicate k '0' ++ cs) =
      List.foldl (fun a c => 10 * a + charVal c) 0 cs := by
  induction k with
  | zero => intro cs; rfl
  | succ k ih =>
      intro cs
      rw [List.replicate_succ, List.cons_append, List.foldl_cons]
      rw [show (10 * 0 + charVal '0' : Nat) = 0 from rfl, ih]

theorem lex_digitRun (l : List Char) (hne : l ≠ [])
    (hd : ∀ c ∈ l, isDigitC c = true) (ts : List Tok) :
    List.foldl lexStep (.ok (ts, .norm)) l =
      .ok (ts, .numInt (l.foldl (fun a c => 10 * a + charVal c) 0)) := by
  cases l with
  | nil => exact absurd rfl hne
  | cons c cs =>
      have hc : isDigitC c = true := hd c (by simp)
      have hstep : lexStep (.ok (ts, .norm)) c = .ok (ts, .numInt (charVal c)) := by
        show normStep ts c = _
        unfold normStep
        rw [digit_not_space hc, if_neg (by simp), if_pos hc]
      show List.foldl lexStep (lexStep (.ok (ts, .norm)) c) cs = _
      rw [hstep, lexChunk_digits cs (fun x hx => hd x (by simp [hx]))]
      rw [List.foldl_cons, show (10 * 0 + charVal c : Nat) = charVal c by omega]

theorem lex_numChars (m ex : Nat) (ts : List Tok) :
    List.foldl lexStep (.ok (ts, .norm)) (numChars m ex) =
      .ok (ts, if ex = 0 then .numInt m else .numFrac m ex) := by
  cases ex with
  | zero =>
      rw [if_pos rfl]
      rw [show numChars m 0 = natChars m from rfl]
      rw [lex_natChars]
  | succ e =>
      rw [if_neg (by omega)]
      have hall : ∀ c ∈ List.replicate (e + 2 - (natChars m).length) '0' ++
          natChars m, isDigitC c = true := by
        intro c hc
        rcases List.mem_append.mp hc with h | h
        · rw [List.eq_of_mem_replicate h]
          rfl
        · exact natChars_digits m c h
      set ds := List.replicate (e + 2 - (natChars m).length) '0' ++ natChars m with hds
      have hlen : e + 2 ≤ ds.length := by
        rw [hds, List.length_append, List.length_replicate]
        omega
      set k := ds.length - (e + 1) with hk
      have hk1 : 1 ≤ k := by omega
      have htl : (ds.take k).length = k := by
        rw [List.length_take]
        omega
      have hdl : (ds.drop k).length = e + 1 := by
        rw [List.length_drop]
        omega
      have hsplit : numChars m (e + 1) = ds.take k ++ '.' :: ds.drop k := rfl
      rw [hsplit, List.foldl_append]
      have htne : ds.take k ≠ [] := by
        intro h
        rw [h] at htl
        simp at htl
        omega
      rw [lex_digitRun (ds.take k) htne
        (fun c hc => hall c (List.mem_of_mem_take hc)) ts]
      cases hdrop : ds.drop k with
      | nil =>
          rw [hdrop] at hdl
          simp at hdl
      | cons c1 cs1 =>
          have hc1 : isDigitC c1 = true := by
            apply hall
            have : c1 ∈ ds.drop k := by rw [hdrop]; simp
            exact List.mem_of_mem_drop this
          have hdot : lexStep (.ok (ts, .numInt
              ((ds.take k).foldl (fun a c => 10 * a + charVal c) 0))) '.' =
              .ok (ts, .numDot ((ds.take k).foldl (fun a c => 10 * a + charVal c) 0)) :=
            rfl
          show List.foldl lexStep (lexStep _ '.') (c1 :: cs1) = _
          rw [hdot]
          have hstep2 : lexStep (.ok (ts, .numDot
              ((ds.take k).foldl (fun a c => 10 * a + charVal c) 0))) c1 =
              .ok (ts, .numFrac (10 * ((ds.take k).foldl
                (fun a c => 10 * a + charVal c) 0) + charVal c1) 1) := by
            show (if isDigitC c1 then (.ok (ts, .numFrac _ 1) : LState)
              else .error .lexError) = _
            rw [if_pos hc1]
          show List.foldl lexStep (lexStep _ c1) cs1 = _
          rw [hstep2]
          rw [lexChunk_frac cs1 (fun c hc => by
            apply hall
            apply List.mem_of_mem_drop (l := ds) (n := k)
            rw [hdrop]
            simp [hc])]
          have hmant : cs1.foldl (fun a c => 10 * a + charVal c)
              (10 * ((ds.take k).foldl (fun a c => 10 * a + charVal c) 0) +
                charVal c1) = m := by
            have h1 : (c1 :: cs1).foldl (fun a c => 10 * a + charVal c)
                ((ds.take k).foldl (fun a c => 10 * a + charVal c) 0) =
                ds.foldl (fun a c => 10 * a + charVal c) 0 := by
              rw [← hdrop, ← List.foldl_append, List.take_append_drop]
            simp only [List.foldl_cons] at h1
            rw [h1]
            rw [hds, digitsVal_pad]
            exact digitsVal_natChars m
          rw [hmant]
          have hexp : 1 + cs1.length = e + 1 := by
            rw [hdrop] at hdl
            simp at hdl
            omega
          rw [hexp]

theorem revOnto_append {α : Type} (l1 l2 : List α) :
    ∀ ts, List.reverseAux (l1 ++ l2) ts = List.reverseAux l2 (List.reverseAux l1 ts) := by
  induction l1 with
  | nil => intro ts; rfl
  | cons x l1 ih => intro ts; exact ih (x :: ts)

theorem identC_false {d : Char} (h1 : isDigitC d = false)
    (h2 : isAlphaC d = false) : isIdentC d = false := by
  unfold isIdentC
  rw [h1, h2]
  rfl

theorem numChars_shape (m ex : Nat) :
    ∃ c cs, numChars m ex = c :: cs ∧ isDigitC c = true := by
  cases ex with
  | zero =>
      cases hnc : natChars m with
      | nil => exact absurd hnc (natChars_ne_nil m)
      | cons c cs =>
          exact ⟨c, cs, hnc, natChars_digits m c (by rw [hnc]; simp)⟩
  | succ e =>
      have hall : ∀ c ∈ List.replicate (e + 2 - (natChars m).length) '0' ++
          natChars m, isDigitC c = true := by
        intro c hc
        rcases List.mem_append.mp hc with h | h
        · rw [List.eq_of_mem_replicate h]
          rfl
        · exact natChars_digits m c h
      set ds := List.replicate (e + 2 - (natChars m).length) '0' ++ natChars m with hds
      have hlen : e + 2 ≤ ds.length := by
        rw [hds, List.length_append, List.length_replicate]
        omega
      set k := ds.length - (e + 1) with hk
      have htl : (ds.take k).length = k := by
        rw [List.length_take]
        omega
      cases htk : ds.take k with
      | nil =>
          rw [htk] at htl
          simp at htl
          omega
      | cons c cs' =>
          refine ⟨c, cs' ++ '.' :: ds.drop k, ?_, ?_⟩
          · show ds.take k ++ '.' :: ds.drop k = _
            rw [htk]
            rfl
          · apply hall
            apply List.mem_of_mem_take (n := k)
            rw [htk]
            simp

theorem printExpr_shape (e : AExpr) (hc : freeVarsE e = []) :
    ∃ c cs, printExprChars e = c :: cs ∧
      (isDigitC c = true ∨ c = '(' ∨ c = 'p') := by
  cases e with
  | num m ex =>
      obtain ⟨c, cs, h1, h2⟩ := numChars_shape m ex
      exact ⟨c, cs, h1, Or.inl h2⟩
  | pi => exact ⟨'p', ['i'], rfl, Or.inr (Or.inr rfl)⟩
  | var s => simp [freeVarsE] at hc
  | neg a => exact ⟨'(', _, rfl, Or.inr (Or.inl rfl)⟩
  | add a b => exact ⟨'(', _, rfl, Or.inr (Or.inl rfl)⟩
  | sub a b => exact ⟨'(', _, rfl, Or.inr (Or.inl rfl)⟩
  | mul a b => exact ⟨'(', _, rfl, Or.inr (Or.inl rfl)⟩
  | div a b => exact ⟨'(', _, rfl, Or.inr (Or.inl rfl)⟩

theorem head_ne_gt {c : Char} (h : isDigitC c = true ∨ c = '(' ∨ c = 'p') :
    c ≠ '>' := by
  rcases h with h | h | h
  · intro e
    subst e
    exact absurd h (by decide)
  · subst h; decide
  · subst h; decide

theorem head_ne_slash {c : Char} (h : isDigitC c = true ∨ c = '(' ∨ c = 'p') :
    c ≠ '/' := by
  rcases h with h | h | h
  · intro e
    subst e
    exact absurd h (by decide)
  · subst h; decide
  · subst h; decide

theorem lex_expr : ∀ (e : AExpr), freeVarsE e = [] →
    ∀ (d : Char), isDigitC d = false → isAlphaC d = false → d ≠ '.' →
    ∀ (ts : List Tok) (rest : List Char),
    lexFold ts (printExprChars e ++ d :: rest) =
      lexFold (List.reverseAux (exprToks e) ts) (d :: rest) := by
  intro e
  induction e with
  | num m ex =>
      intro _ d hd1 _ hd3 ts rest
      show List.foldl lexStep (.ok (ts, .norm)) (numChars m ex ++ d :: rest) = _
      rw [List.foldl_append, lex_numChars]
      cases ex with
      | zero =>
          rw [if_pos rfl]
          show List.foldl lexStep (lexStep (.ok (ts, .numInt m)) d) rest = _
          rw [show lexStep (.ok (ts, .numInt m)) d =
              normStep (.number m 0 :: ts) d from by
            show (if isDigitC d then (.ok (ts, .numInt (10 * m + charVal d)) : LState)
              else if d = '.' then .ok (ts, .numDot m)
              else normStep (.number m 0 :: ts) d) = _
            rw [if_neg (by simp [hd1]), if_neg hd3]]
          rfl
      | succ e2 =>
          rw [if_neg (by omega)]
          show List.foldl lexStep (lexStep (.ok (ts, .numFrac m (e2 + 1))) d) rest = _
          rw [show lexStep (.ok (ts, .numFrac m (e2 + 1))) d =
              normStep (.number m (e2 + 1) :: ts) d from by
            show (if isDigitC d then
                (.ok (ts, .numFrac (10 * m + charVal d) (e2 + 1 + 1)) : LState)
              else normStep (.number m (e2 + 1) :: ts) d) = _
            rw [if_neg (by simp [hd1])]]
          rfl
  | pi =>
      intro _ d hd1 hd2 _ ts rest
      show List.foldl lexStep
        (lexStep (lexStep (.ok (ts, .norm)) 'p') 'i') (d :: rest) = _
      rw [show lexStep (lexStep (.ok (ts, .norm)) 'p') 'i' =
        .ok (ts, .identAcc ['p', 'i']) from rfl]
      show List.foldl lexStep (lexStep (.ok (ts, .identAcc ['p', 'i'])) d) rest = _
      rw [show lexStep (.ok (ts, .identAcc ['p', 'i'])) d =
          normStep (.ident ("pi") :: ts) d from by
        show (if isIdentC d then (.ok (ts, .identAcc (['p', 'i'] ++ [d])) : LState)
          else normStep (.ident (String.mk ['p', 'i']) :: ts) d) = _
        rw [if_neg (by simp [identC_false hd1 hd2])]]
      rfl
  | var s =>
      intro hc
      exact absurd hc (by simp [freeVarsE])
  | neg a iha =>
      intro hc d hd1 hd2 hd3 ts rest
      have hca : freeVarsE a = [] := hc
      obtain ⟨c1, A', hA, hshape⟩ := printExpr_shape a hca
      show List.foldl lexStep (.ok (ts, .norm))
        (('(' :: '-' :: (printExprChars a ++ [')'])) ++ d :: rest) = _
      rw [show (('(' :: '-' :: (printExprChars a ++ [')'])) ++ d :: rest) =
        '(' :: '-' :: (printExprChars a ++ ')' :: d :: rest) by simp]
      show List.foldl lexStep (lexStep (lexStep (.ok (ts, .norm)) '(') '-')
        (printExprChars a ++ ')' :: d :: rest) = _
      rw [show lexStep (lexStep (.ok (ts, .norm)) '(') '-' =
        .ok (.lparen :: ts, .dash) from rfl]
      rw [hA]
      show List.foldl lexStep (lexStep (.ok (.lparen :: ts, .dash)) c1)
        (A' ++ ')' :: d :: rest) = _
      rw [show lexStep (.ok (.lparen :: ts, .dash)) c1 =
          normStep (.minus :: .lparen :: ts) c1 from by
        show (if c1 = '>' then (.ok (.arrow :: .lparen :: ts, .norm) : LState)
          else normStep (.minus :: .lparen :: ts) c1) = _
        rw [if_neg (head_ne_gt hshape)]]
      rw [show List.foldl lexStep (normStep (.minus :: .lparen :: ts) c1)
          (A' ++ ')' :: d :: rest) =
          lexFold (.minus :: .lparen :: ts)
            (printExprChars a ++ ')' :: d :: rest) from by rw [hA]; rfl]
      rw [iha hca ')' (by decide) (by decide) (by decide)]
      show List.foldl lexStep (lexStep (.ok (List.reverseAux (exprToks a)
        (.minus :: .lparen :: ts), .norm)) ')') (d :: rest) = _
      rw [show lexStep (.ok (List.reverseAux (exprToks a)
        (.minus :: .lparen :: ts), .norm)) ')' =
        .ok (.rparen :: List.reverseAux (exprToks a)
          (.minus :: .lparen :: ts), .norm) from rfl]
      show _ = lexFold (List.reverseAux (exprToks a ++ [.rparen])
        (.minus :: .lparen :: ts)) (d :: rest)
      rw [revOnto_append]
      rfl
  | add a b iha ihb =>
      intro hc d hd1 hd2 hd3 ts rest
      have h2 : freeVarsE a ++ freeVarsE b = [] := hc
      obtain ⟨hca, hcb⟩ := List.append_eq_nil.mp h2
      show List.foldl lexStep (.ok (ts, .norm))
        (('(' :: (printExprChars a ++ '+' :: (printExprChars b ++ [')']))) ++
          d :: rest) = _
      rw [show (('(' :: (printExprChars a ++ '+' ::
          (printExprChars b ++ [')']))) ++ d :: rest) =
        '(' :: (printExprChars a ++ '+' :: (printExprChars b ++ ')' :: d :: rest))
        by simp]
      show lexFold (.lparen :: ts)
        (printExprChars a ++ '+' :: (printExprChars b ++ ')' :: d :: rest)) = _
      rw [iha hca '+' (by decide) (by decide) (by decide)]
      show lexFold (.plus :: List.reverseAux (exprToks a) (.lparen :: ts))
        (printExprChars b ++ ')' :: d :: rest) = _
      rw [ihb hcb ')' (by decide) (by decide) (by decide)]
      show lexFold (.rparen :: List.reverseAux (exprToks b)
        (.plus :: List.reverseAux (exprToks a) (.lparen :: ts))) (d :: rest) = _
      show _ = lexFold (List.reverseAux (exprToks a ++ .plus ::
        (exprToks b ++ [.rparen])) (.lparen :: ts)) (d :: rest)
      rw [revOnto_append]
      show _ = lexFold (List.reverseAux (exprToks b ++ [.rparen])
        (.plus :: List.reverseAux (exprToks a) (.lparen :: ts))) (d :: rest)
      rw [revOnto_append]
      rfl
  | sub a b iha ihb =>
      intro hc d hd1 hd2 hd3 ts rest
      have h2 : freeVarsE a ++ freeVarsE b = [] := hc
      obtain ⟨hca, hcb⟩ := List.append_eq_nil.mp h2
      obtain ⟨c1, B', hB, hshape⟩ := printExpr_shape b hcb
      show List.foldl lexStep (.ok (ts, .norm))
        (('(' :: (printExprChars a ++ '-' :: (printExprChars b ++ [')']))) ++
          d :: rest) = _
      rw [show (('(' :: (printExprChars a ++ '-' ::
          (printExprChars b ++ [')']))) ++ d :: rest) =
        '(' :: (printExprChars a ++ '-' :: (printExprChars b ++ ')' :: d :: rest))
        by simp]
      show lexFold (.lparen :: ts)
        (printExprChars a ++ '-' :: (printExprChars b ++ ')' :: d :: rest)) = _
      rw [iha hca '-' (by decide) (by decide) (by decide)]
      rw [hB]
      show List.foldl lexStep (lexStep (.ok (List.reverseAux (exprToks a)
        (.lparen :: ts), .dash)) c1) (B' ++ ')' :: d :: rest) = _
      rw [show lexStep (.ok (List.reverseAux (exprToks a)
          (.lparen :: ts), .dash)) c1 =
          normStep (.minus :: List.reverseAux (exprToks a) (.lparen :: ts)) c1
          from by
        show (if c1 = '>' then (.ok (.arrow :: List.reverseAux (exprToks a)
            (.lparen :: ts), .norm) : LState)
          else normStep (.minus :: List.reverseAux (exprToks a)
            (.lparen :: ts)) c1) = _
        rw [if_neg (head_ne_gt hshape)]]
      rw [show List.foldl lexStep (normStep (.minus :: List.reverseAux (exprToks a)
          (.lparen :: ts)) c1) (B' ++ ')' :: d :: rest) =
          lexFold (.minus :: List.reverseAux (exprToks a) (.lparen :: ts))
            (printExprChars b ++ ')' :: d :: rest) from by rw [hB]; rfl]
      rw [ihb hcb ')' (by decide) (by decide) (by decide)]
      show lexFold (.rparen :: List.reverseAux (exprToks b)
        (.minus :: List.reverseAux (exprToks a) (.lparen :: ts))) (d :: rest) = _
      show _ = lexFold (List.reverseAux (exprToks a ++ .minus ::
        (exprToks b ++ [.rparen])) (.lparen :: ts)) (d :: rest)
      rw [revOnto_append]
      show _ = lexFold (List.reverseAux (exprToks b ++ [.rparen])
        (.minus :: List.reverseAux (exprToks a) (.lparen :: ts))) (d :: rest)
      rw [revOnto_append]
      rfl
  | mul a b iha ihb =>
      intro hc d hd1 hd2 hd3 ts rest
      have h2 : freeVarsE a ++ freeVarsE b = [] := hc
      obtain ⟨hca, hcb⟩ := List.append_eq_nil.mp h2
      show List.foldl lexStep (.ok (ts, .norm))
        (('(' :: (printExprChars a ++ '*' :: (printExprChars b ++ [')']))) ++
          d :: rest) = _
      rw [show (('(' :: (printExprChars a ++ '*' ::
          (printExprChars b ++ [')']))) ++ d :: rest) =
        '(' :: (printExprChars a ++ '*' :: (printExprChars b ++ ')' :: d :: rest))
        by simp]
      show lexFold (.lparen :: ts)
        (printExprChars a ++ '*' :: (printExprChars b ++ ')' :: d :: rest)) = _
      rw [iha hca '*' (by decide) (by decide) (by decide)]
      show lexFold (.star :: List.reverseAux (exprToks a) (.lparen :: ts))
        (printExprChars b ++ ')' :: d :: rest) = _
      rw [ihb hcb ')' (by decide) (by decide) (by decide)]
      show lexFold (.rparen :: List.reverseAux (exprToks b)
        (.star :: List.reverseAux (exprToks a) (.lparen :: ts))) (d :: rest) = _
      show _ = lexFold (List.reverseAux (exprToks a ++ .star ::
        (exprToks b ++ [.rparen])) (.lparen :: ts)) (d :: rest)
      rw [revOnto_append]
      show _ = lexFold (List.reverseAux (exprToks b ++ [.rparen])
        (.star :: List.reverseAux (exprToks a) (.lparen :: ts))) (d :: rest)
      rw [revOnto_append]
      rfl
  | div a b iha ihb =>
      intro hc d hd1 hd2 hd3 ts rest
      have h2 : freeVarsE a ++ freeVarsE b = [] := hc
      obtain ⟨hca, hcb⟩ := List.append_eq_nil.mp h2
      obtain ⟨c1, B', hB, hshape⟩ := printExpr_shape b hcb
      show List.foldl lexStep (.ok (ts, .norm))
        (('(' :: (printExprChars a ++ '/' :: (printExprChars b ++ [')']))) ++
          d :: rest) = _
      rw [show (('(' :: (printExprChars a ++ '/' ::
          (printExprChars b ++ [')']))) ++ d :: rest) =
        '(' :: (printExprChars a ++ '/' :: (printExprChars b ++ ')' :: d :: rest))
        by simp]
      show lexFold (.lparen :: ts)
        (printExprChars a ++ '/' :: (printExprChars b ++ ')' :: d :: rest)) = _
      rw [iha hca '/' (by decide) (by decide) (by decide)]
      rw [hB]
      show List.foldl lexStep (lexStep (.ok (List.reverseAux (exprToks a)
        (.lparen :: ts), .slashC)) c1) (B' ++ ')' :: d :: rest) = _
      rw [show lexStep (.ok (List.reverseAux (exprToks a)
          (.lparen :: ts), .slashC)) c1 =
          normStep (.slash :: List.reverseAux (exprToks a) (.lparen :: ts)) c1
          from by
        show (if c1 = '/' then (.ok (List.reverseAux (exprToks a)
            (.lparen :: ts), .comment) : LState)
          else normStep (.slash :: List.reverseAux (exprToks a)
            (.lparen :: ts)) c1) = _
        rw [if_neg (head_ne_slash hshape)]]
      rw [show List.foldl lexStep (normStep (.slash :: List.reverseAux (exprToks a)
          (.lparen :: ts)) c1) (B' ++ ')' :: d :: rest) =
          lexFold (.slash :: List.reverseAux (exprToks a) (.lparen :: ts))
            (printExprChars b ++ ')' :: d :: rest) from by rw [hB]; rfl]
      rw [ihb hcb ')' (by decide) (by decide) (by decide)]
      show lexFold (.rparen :: List.reverseAux (exprToks b)
        (.slash :: List.reverseAux (exprToks a) (.lparen :: ts))) (d :: rest) = _
      show _ = lexFold (List.reverseAux (exprToks a ++ .slash ::
        (exprToks b ++ [.rparen])) (.lparen :: ts)) (d :: rest)
      rw [revOnto_append]
      show _ = lexFold (List.reverseAux (exprToks b ++ [.rparen])
        (.slash :: List.reverseAux (exprToks a) (.lparen :: ts))) (d :: rest)
      rw [revOnto_append]
      rfl

theorem alpha_not_space {c : Char} (h : isAlphaC c = true) : isSpaceC c = false := by
  cases hs : isSpaceC c with
  | false => rfl
  | true =>
      exfalso
      simp only [isSpaceC, Bool.or_eq_true, decide_eq_true_eq] at hs
      rcases hs with ((hs | hs) | hs) | hs <;> (subst hs; revert h; decide)

theorem alpha_not_digit {c : Char} (h : isAlphaC c = true) : isDigitC c = false := by
  cases hd : isDigitC c with
  | false => rfl
  | true =>
      exfalso
      simp only [isAlphaC, Bool.or_eq_true, Bool.and_eq_true,
        decide_eq_true_eq] at h
      simp only [isDigitC, Bool.and_eq_true, decide_eq_true_eq] at hd
      omega

theorem alpha_ident {c : Char} (h : isAlphaC c = true) : isIdentC c = true := by
  unfold isIdentC
  rw [h]
  rfl

theorem identAcc_flush (acc : List Char) {d : Char} (hd : isIdentC d = false)
    (ts : List Tok) : lexStep (.ok (ts, .identAcc acc)) d =
      normStep (.ident (String.mk acc) :: ts) d := by
  show (if isIdentC d then (.ok (ts, .identAcc (acc ++ [d])) : LState)
    else normStep (.ident (String.mk acc) :: ts) d) = _
  rw [if_neg (by simp [hd])]

theorem lex_identRun : ∀ (cs acc : List Char) (ts : List Tok),
    (∀ c ∈ cs, isIdentC c = true) →
    List.foldl lexStep (.ok (ts, .identAcc acc)) cs =
      .ok (ts, .identAcc (acc ++ cs)) := by
  intro cs
  induction cs with
  | nil =>
      intro acc ts _
      rw [List.append_nil]
      rfl
  | cons c cs ih =>
      intro acc ts hall
      have hc : isIdentC c = true := hall c (by simp)
      show List.foldl lexStep (lexStep (.ok (ts, .identAcc acc)) c) cs = _
      rw [show lexStep (.ok (ts, .identAcc acc)) c =
          .ok (ts, .identAcc (acc ++ [c])) from by
        show (if isIdentC c then (.ok (ts, .identAcc (acc ++ [c])) : LState)
          else normStep (.ident (String.mk acc) :: ts) c) = _
        rw [if_pos hc]]
      rw [ih (acc ++ [c]) ts (fun x hx => hall x (by simp [hx]))]
      rw [List.append_assoc]
      rfl

theorem lex_identChunk (cs : List Char) (hne : cs ≠ [])
    (hall : ∀ c ∈ cs, isAlphaC c = true) (ts : List Tok) :
    List.foldl lexStep (.ok (ts, .norm)) cs = .ok (ts, .identAcc cs) := by
  cases cs with
  | nil => exact absurd rfl hne
  | cons c cs2 =>
      have hc : isAlphaC c = true := hall c (by simp)
      show List.foldl lexStep (lexStep (.ok (ts, .norm)) c) cs2 = _
      rw [show lexStep (.ok (ts, .norm)) c = .ok (ts, .identAcc [c]) from by
        show normStep ts c = _
        unfold normStep
        rw [if_neg (by simp [alpha_not_space hc]),
          if_neg (by simp [alpha_not_digit hc]), if_pos hc]]
      exact lex_identRun cs2 [c] ts
        (fun x hx => alpha_ident (hall x (by simp [hx])))

theorem mnemonic_alpha (nc : Nat) (k : GateKind) :
    ∀ c ∈ mnemonicChars nc k, isAlphaC c = true := by
  intro c hc
  rcases List.mem_append.mp hc with h | h
  · rw [List.eq_of_mem_replicate h]
    decide
  · have hall : ((baseMnemonic k).data).all isAlphaC = true := by
      cases k <;> decide
    exact List.all_eq_true.mp hall c h

theorem mnemonic_ne_nil (nc : Nat) (k : GateKind) : mnemonicChars nc k ≠ [] := by
  cases nc with
  | zero =>
      show (baseMnemonic k).data ≠ []
      cases k <;> decide
  | succ m =>
      show ('c' :: (List.replicate m 'c' ++ (baseMnemonic k).data)) ≠ []
      simp

theorem lex_mnemonic (nc : Nat) (k : GateKind) (ts : List Tok) {d : Char}
    (hd : isIdentC d = false) (rest : List Char) :
    lexFold ts (mnemonicChars nc k ++ d :: rest) =
      List.foldl lexStep (normStep (.ident (mnemonicStr nc k) :: ts) d) rest := by
  show List.foldl lexStep (.ok (ts, .norm)) (mnemonicChars nc k ++ d :: rest) = _
  rw [List.foldl_append,
    lex_identChunk (mnemonicChars nc k) (mnemonic_ne_nil nc k)
      (mnemonic_alpha nc k) ts]
  show List.foldl lexStep
    (lexStep (.ok (ts, .identAcc (mnemonicChars nc k))) d) rest = _
  rw [identAcc_flush _ hd]
  rfl

theorem lex_qOperand (i : Nat) (ts : List Tok) (rest : List Char) :
    lexFold ts (qOperandChars i ++ rest) =
      lexFold (List.reverseAux (qOperandToks i) ts) rest := by
  rw [show qOperandChars i ++ rest =
    'q' :: '[' :: (natChars i ++ (']' :: rest)) by simp [qOperandChars]]
  show List.foldl lexStep (.ok (.lbrack :: .ident ("q") :: ts, .norm))
    (natChars i ++ ']' :: rest) = _
  rw [List.foldl_append, lex_natChars]
  show List.foldl lexStep
    (lexStep (.ok (.lbrack :: .ident ("q") :: ts, .numInt i)) ']') rest = _
  rw [show lexStep (.ok (.lbrack :: .ident ("q") :: ts, .numInt i)) ']' =
    .ok (.rbrack :: .number i 0 :: .lbrack :: .ident ("q") :: ts, .norm)
    from rfl]
  rfl

theorem lex_operandList : ∀ (l : List Nat) (ts : List Tok) (rest : List Char),
    lexFold ts (operandListChars l ++ rest) =
      lexFold (List.reverseAux (operandListToks l) ts) rest := by
  intro l
  induction l with
  | nil => intro ts rest; rfl
  | cons i tl ih =>
      intro ts rest
      cases tl with
      | nil => exact lex_qOperand i ts rest
      | cons j tl2 =>
          show lexFold ts ((qOperandChars i ++ ',' ::
            operandListChars (j :: tl2)) ++ rest) = _
          rw [show (qOperandChars i ++ ',' :: operandListChars (j :: tl2)) ++
              rest =
            qOperandChars i ++ ',' :: (operandListChars (j :: tl2) ++ rest)
            by simp]
          rw [lex_qOperand]
          show lexFold (.comma :: List.reverseAux (qOperandToks i) ts)
            (operandListChars (j :: tl2) ++ rest) = _
          rw [ih]
          show _ = lexFold (List.reverseAux (qOperandToks i ++ .comma ::
            operandListToks (j :: tl2)) ts) rest
          rw [revOnto_append]
          rfl

theorem lex_opLine (op : Operation) (hcl : opFreeVars op = []) (ts : List Tok)
    (rest : List Char) :
    lexFold ts (opLineChars op ++ rest) =
      lexFold (List.reverseAux (opToks op) ts) rest := by
  cases op with
  | gate k cs t p =>
      cases p with
      | none =>
          show lexFold ts (((mnemonicChars cs.length k ++ [] ++
            ' ' :: (operandListChars (cs ++ [t]) ++ [';'])) ++ ['\n']) ++
              rest) = _
          rw [show ((mnemonicChars cs.length k ++ [] ++
              ' ' :: (operandListChars (cs ++ [t]) ++ [';'])) ++ ['\n']) ++
                rest =
            mnemonicChars cs.length k ++ ' ' ::
              (operandListChars (cs ++ [t]) ++ ';' :: '\n' :: rest) by simp]
          rw [lex_mnemonic cs.length k ts (by decide)]
          show lexFold (.ident (mnemonicStr cs.length k) :: ts)
            (operandListChars (cs ++ [t]) ++ ';' :: '\n' :: rest) = _
          rw [lex_operandList]
          show lexFold (.semi :: List.reverseAux (operandListToks (cs ++ [t]))
            (.ident (mnemonicStr cs.length k) :: ts)) rest = _
          show _ = lexFold (List.reverseAux (operandListToks (cs ++ [t]) ++
            [.semi]) (.ident (mnemonicStr cs.length k) :: ts)) rest
          rw [revOnto_append]
          rfl
      | some e =>
          have hce : freeVarsE e = [] := hcl
          show lexFold ts (((mnemonicChars cs.length k ++
            ('(' :: (printExprChars e ++ [')'])) ++
            ' ' :: (operandListChars (cs ++ [t]) ++ [';'])) ++ ['\n']) ++
              rest) = _
          rw [show ((mnemonicChars cs.length k ++
              ('(' :: (printExprChars e ++ [')'])) ++
              ' ' :: (operandListChars (cs ++ [t]) ++ [';'])) ++ ['\n']) ++
                rest =
            mnemonicChars cs.length k ++ '(' :: (printExprChars e ++ ')' ::
              ' ' :: (operandListChars (cs ++ [t]) ++ ';' :: '\n' :: rest))
            by simp]
          rw [lex_mnemonic cs.length k ts (by decide)]
          show lexFold (.lparen :: .ident (mnemonicStr cs.length k) :: ts)
            (printExprChars e ++ ')' ::
              ' ' :: (operandListChars (cs ++ [t]) ++ ';' :: '\n' :: rest)) = _
          rw [lex_expr e hce ')' (by decide) (by decide) (by decide)]
          show lexFold (.rparen :: List.reverseAux (exprToks e)
            (.lparen :: .ident (mnemonicStr cs.length k) :: ts))
            (operandListChars (cs ++ [t]) ++ ';' :: '\n' :: rest) = _
          rw [lex_operandList]
          show lexFold (.semi :: List.reverseAux (operandListToks (cs ++ [t]))
            (.rparen :: List.reverseAux (exprToks e)
              (.lparen :: .ident (mnemonicStr cs.length k) :: ts))) rest = _
          show _ = lexFold (List.reverseAux ((exprToks e ++ [.rparen]) ++
            (operandListToks (cs ++ [t]) ++ [.semi]))
            (.lparen :: .ident (mnemonicStr cs.length k) :: ts)) rest
          rw [revOnto_append, revOnto_append, revOnto_append]
          rfl
  | measure q c3 =>
      show lexFold ts (((("measure q[").data ++ natChars q ++
        ("] -> c[").data ++ natChars c3 ++ ("];").data) ++ ['\n']) ++ rest) = _
      rw [show ((("measure q[").data ++ natChars q ++ ("] -> c[").data ++
          natChars c3 ++ ("];").data) ++ ['\n']) ++ rest =
        ("measure q[").data ++ (natChars q ++ (("] -> c[").data ++
          (natChars c3 ++ (("];").data ++ '\n' :: rest)))) by simp]
      show List.foldl lexStep (.ok (ts, .norm)) (("measure q[").data ++
        (natChars q ++ (("] -> c[").data ++
          (natChars c3 ++ (("];").data ++ '\n' :: rest))))) = _
      rw [List.foldl_append]
      rw [show List.foldl lexStep (.ok (ts, .norm)) (("measure q[").data) =
        .ok (.lbrack :: .ident ("q") :: .ident ("measure") :: ts, .norm)
        from rfl]
      rw [List.foldl_append, lex_natChars]
      rw [List.foldl_append]
      rw [show List.foldl lexStep (.ok (.lbrack :: .ident ("q") ::
          .ident ("measure") :: ts, .numInt q)) (("] -> c[").data) =
        .ok (.lbrack :: .ident ("c") :: .arrow :: .rbrack :: .number q 0 ::
          .lbrack :: .ident ("q") :: .ident ("measure") :: ts, .norm)
        from rfl]
      rw [List.foldl_append, lex_natChars]
      show List.foldl lexStep (.ok (.semi :: .rbrack :: .number c3 0 ::
        .lbrack :: .ident ("c") :: .arrow :: .rbrack :: .number q 0 ::
        .lbrack :: .ident ("q") :: .ident ("measure") :: ts, .norm)) rest = _
      rfl

theorem lex_opsChars : ∀ (ops : List Operation),
    (∀ op ∈ ops, opFreeVars op = []) →
    ∀ (ts : List Tok) (rest : List Char),
    lexFold ts (opsChars ops ++ rest) =
      lexFold (List.reverseAux (opsToks ops) ts) rest := by
  intro ops
  induction ops with
  | nil => intro _ ts rest; rfl
  | cons op ops ih =>
      intro hcl ts rest
      show lexFold ts ((opLineChars op ++ opsChars ops) ++ rest) = _
      rw [List.append_assoc]
      rw [lex_opLine op (hcl op (by simp)) ts]
      rw [ih (fun x hx => hcl x (by simp [hx]))]
      show _ = lexFold (List.reverseAux (opToks op ++ opsToks ops) ts) rest
      rw [revOnto_append]

theorem lex_header (n : Nat) (ts : List Tok) (rest : List Char) :
    lexFold ts (headerChars n ++ rest) =
      lexFold (List.reverseAux (headerToks n) ts) rest := by
  rw [show headerChars n ++ rest =
    ("OPENQASM 2.0;\ninclude \"qelib1.inc\";\nqreg q[").data ++
      (natChars n ++ (("];\ncreg c[").data ++ (natChars n ++
        (("];\n").data ++ rest)))) from by
    simp only [headerChars, List.append_assoc, List.cons_append]
    rfl]
  show List.foldl lexStep (.ok (ts, .norm))
    (("OPENQASM 2.0;\ninclude \"qelib1.inc\";\nqreg q[").data ++
      (natChars n ++ (("];\ncreg c[").data ++ (natChars n ++
        (("];\n").data ++ rest))))) = _
  rw [List.foldl_append]
  rw [show List.foldl lexStep (.ok (ts, .norm))
      (("OPENQASM 2.0;\ninclude \"qelib1.inc\";\nqreg q[").data) =
    .ok (.lbrack :: .ident ("q") :: .ident ("qreg") :: .semi ::
      .str ("qelib1.inc") :: .ident ("include") :: .semi :: .number 20 1 ::
      .ident ("OPENQASM") :: ts, .norm) from rfl]
  rw [List.foldl_append, lex_natChars]
  rw [List.foldl_append]
  rw [show List.foldl lexStep (.ok (.lbrack :: .ident ("q") ::
      .ident ("qreg") :: .semi :: .str ("qelib1.inc") :: .ident ("include") ::
      .semi :: .number 20 1 :: .ident ("OPENQASM") :: ts, .numInt n))
      (("];\ncreg c[").data) =
    .ok (.lbrack :: .ident ("c") :: .ident ("creg") :: .semi :: .rbrack ::
      .number n 0 :: .lbrack :: .ident ("q") :: .ident ("qreg") :: .semi ::
      .str ("qelib1.inc") :: .ident ("include") :: .semi :: .number 20 1 ::
      .ident ("OPENQASM") :: ts, .norm) from rfl]
  rw [List.foldl_append, lex_natChars]
  show List.foldl lexStep (.ok (.semi :: .rbrack :: .number n 0 ::
    .lbrack :: .ident ("c") :: .ident ("creg") :: .semi :: .rbrack ::
    .number n 0 :: .lbrack :: .ident ("q") :: .ident ("qreg") :: .semi ::
    .str ("qelib1.inc") :: .ident ("include") :: .semi :: .number 20 1 ::
    .ident ("OPENQASM") :: ts, .norm)) rest = _
  rfl

theorem lex_program (n : Nat) (ops : List Operation)
    (hcl : ∀ op ∈ ops, opFreeVars op = []) :
    lexChars (programChars n ops) = .ok (programToks n ops) := by
  show lexFinish (lexFold [] (headerChars n ++ opsChars ops)) = _
  rw [show headerChars n ++ opsChars ops =
    headerChars n ++ (opsChars ops ++ []) from by rw [List.append_nil]]
  rw [lex_header]
  rw [lex_opsChars ops hcl]
  show Except.ok (List.reverse (List.reverseAux (opsToks ops)
    (List.reverseAux (headerToks n) []))) = _
  simp [List.reverseAux_eq, programToks]

/-- The node count of a parameter expression (fuel measure for the
expression parser). -/
def sizeE : AExpr → Nat
  | .num _ _ => 1
  | .pi => 1
  | .var _ => 1
  | .neg a => sizeE a + 1
  | .add a b => sizeE a + sizeE b + 1
  | .sub a b => sizeE a + sizeE b + 1
  | .mul a b => sizeE a + sizeE b + 1
  | .div a b => sizeE a + sizeE b + 1

theorem loopM_rparen (f : Nat) (a : AExpr) (r : List Tok) :
    parseE (f + 1) (.loopM a) (.rparen :: r) = .ok (a, .rparen :: r) := rfl

theorem loopM_plus (f : Nat) (a : AExpr) (r : List Tok) :
    parseE (f + 1) (.loopM a) (.plus :: r) = .ok (a, .plus :: r) := rfl

theorem loopM_minus (f : Nat) (a : AExpr) (r : List Tok) :
    parseE (f + 1) (.loopM a) (.minus :: r) = .ok (a, .minus :: r) := rfl

theorem loopA_rparen (f : Nat) (a : AExpr) (r : List Tok) :
    parseE (f + 1) (.loopA a) (.rparen :: r) = .ok (a, .rparen :: r) := rfl

theorem atM_of_atF {f : Nat} {toks r : List Tok} {a : AExpr}
    (h1 : parseE f .atF toks = .ok (a, r))
    {out : AExpr × List Tok} (h2 : parseE f (.loopM a) r = .ok out) :
    parseE (f + 1) .atM toks = .ok out := by
  simp only [parseE]
  rw [h1, bindB_ok]
  exact h2

theorem atA_of_atM {f : Nat} {toks r : List Tok} {a : AExpr}
    (h1 : parseE f .atM toks = .ok (a, r))
    {out : AExpr × List Tok} (h2 : parseE f (.loopA a) r = .ok out) :
    parseE (f + 1) .atA toks = .ok out := by
  simp only [parseE]
  rw [h1, bindB_ok]
  exact h2

theorem atF_lparen {f : Nat} {r r2 : List Tok} {a : AExpr}
    (h1 : parseE f .atA r = .ok (a, .rparen :: r2)) :
    parseE (f + 1) .atF (.lparen :: r) = .ok (a, r2) := by
  simp only [parseE]
  rw [h1, bindB_ok]

theorem atF_minus {f : Nat} {r r1 : List Tok} {a : AExpr}
    (h1 : parseE f .atF r = .ok (a, r1)) :
    parseE (f + 1) .atF (.minus :: r) = .ok (.neg a, r1) := by
  simp only [parseE]
  rw [h1, bindB_ok]

theorem loopA_plus {f : Nat} {r r1 : List Tok} {a b : AExpr}
    (h1 : parseE f .atM r = .ok (b, r1))
    {out : AExpr × List Tok} (h2 : parseE f (.loopA (.add a b)) r1 = .ok out) :
    parseE (f + 1) (.loopA a) (.plus :: r) = .ok out := by
  simp only [parseE]
  rw [h1, bindB_ok]
  exact h2

theorem loopA_minus {f : Nat} {r r1 : List Tok} {a b : AExpr}
    (h1 : parseE f .atM r = .ok (b, r1))
    {out : AExpr × List Tok} (h2 : parseE f (.loopA (.sub a b)) r1 = .ok out) :
    parseE (f + 1) (.loopA a) (.minus :: r) = .ok out := by
  simp only [parseE]
  rw [h1, bindB_ok]
  exact h2

theorem loopM_star {f : Nat} {r r1 : List Tok} {a b : AExpr}
    (h1 : parseE f .atF r = .ok (b, r1))
    {out : AExpr × List Tok} (h2 : parseE f (.loopM (.mul a b)) r1 = .ok out) :
    parseE (f + 1) (.loopM a) (.star :: r) = .ok out := by
  simp only [parseE]
  rw [h1, bindB_ok]
  exact h2

theorem loopM_slash {f : Nat} {r r1 : List Tok} {a b : AExpr}
    (h1 : parseE f .atF r = .ok (b, r1))
    {out : AExpr × List Tok} (h2 : parseE f (.loopM (.div a b)) r1 = .ok out) :
    parseE (f + 1) (.loopM a) (.slash :: r) = .ok out := by
  simp only [parseE]
  rw [h1, bindB_ok]
  exact h2

theorem sizeE_pos : ∀ (e : AExpr), 1 ≤ sizeE e := by
  intro e
  cases e <;> simp [sizeE]

theorem parseE_factor : ∀ (e : AExpr), freeVarsE e = [] →
    ∀ (f : Nat), 4 * sizeE e ≤ f →
    ∀ (rest : List Tok),
    parseE f .atF (exprToks e ++ rest) = .ok (e, rest) := by
  intro e
  induction e with
  | num m ex =>
      intro _ f hf rest
      have hf' : 4 * 1 ≤ f := hf
      obtain ⟨f1, rfl⟩ : ∃ g, f = g + 1 := ⟨f - 1, by omega⟩
      rfl
  | pi =>
      intro _ f hf rest
      have hf' : 4 * 1 ≤ f := hf
      obtain ⟨f1, rfl⟩ : ∃ g, f = g + 1 := ⟨f - 1, by omega⟩
      rfl
  | var s =>
      intro hc
      exact absurd hc (by simp [freeVarsE])
  | neg a iha =>
      intro hc f hf rest
      have hca : freeVarsE a = [] := hc
      have hf' : 4 * (sizeE a + 1) ≤ f := hf
      obtain ⟨f1, rfl⟩ : ∃ g, f = g + 4 := ⟨f - 4, by omega⟩
      rw [show exprToks (.neg a) ++ rest =
        .lparen :: .minus :: (exprToks a ++ .rparen :: rest) from by
          show .lparen :: .minus :: (exprToks a ++ [.rparen]) ++ rest = _
          simp]
      exact atF_lparen (f := f1 + 3)
        (atA_of_atM (f := f1 + 2)
          (atM_of_atF (f := f1 + 1)
            (atF_minus (f := f1) (iha hca f1 (by omega) (.rparen :: rest)))
            (loopM_rparen f1 _ _))
          (loopA_rparen (f1 + 1) _ _))
  | add a b iha ihb =>
      intro hc f hf rest
      have h2 : freeVarsE a ++ freeVarsE b = [] := hc
      obtain ⟨hca, hcb⟩ := List.append_eq_nil.mp h2
      have hf' : 4 * (sizeE a + sizeE b + 1) ≤ f := hf
      have hpa := sizeE_pos a
      have hpb := sizeE_pos b
      obtain ⟨f1, rfl⟩ : ∃ g, f = g + 8 := ⟨f - 8, by omega⟩
      rw [show exprToks (.add a b) ++ rest =
        .lparen :: (exprToks a ++ .plus :: (exprToks b ++ .rparen :: rest))
        from by
          show .lparen :: (exprToks a ++ .plus :: (exprToks b ++ [.rparen])) ++
            rest = _
          simp]
      exact atF_lparen (f := f1 + 7)
        (atA_of_atM (f := f1 + 6)
          (atM_of_atF (f := f1 + 5)
            (iha hca (f1 + 5) (by omega) (.plus :: (exprToks b ++ .rparen :: rest)))
            (loopM_plus (f1 + 4) _ _))
          (loopA_plus (f := f1 + 5)
            (atM_of_atF (f := f1 + 4)
              (ihb hcb (f1 + 4) (by omega) (.rparen :: rest))
              (loopM_rparen (f1 + 3) _ _))
            (loopA_rparen (f1 + 4) _ _)))
  | sub a b iha ihb =>
      intro hc f hf rest
      have h2 : freeVarsE a ++ freeVarsE b = [] := hc
      obtain ⟨hca, hcb⟩ := List.append_eq_nil.mp h2
      have hf' : 4 * (sizeE a + sizeE b + 1) ≤ f := hf
      have hpa := sizeE_pos a
      have hpb := sizeE_pos b
      obtain ⟨f1, rfl⟩ : ∃ g, f = g + 8 := ⟨f - 8, by omega⟩
      rw [show exprToks (.sub a b) ++ rest =
        .lparen :: (exprToks a ++ .minus :: (exprToks b ++ .rparen :: rest))
        from by
          show .lparen :: (exprToks a ++ .minus :: (exprToks b ++ [.rparen])) ++
            rest = _
          simp]
      exact atF_lparen (f := f1 + 7)
        (atA_of_atM (f := f1 + 6)
          (atM_of_atF (f := f1 + 5)
            (iha hca (f1 + 5) (by omega)
              (.minus :: (exprToks b ++ .rparen :: rest)))
            (loopM_minus (f1 + 4) _ _))
          (loopA_minus (f := f1 + 5)
            (atM_of_atF (f := f1 + 4)
              (ihb hcb (f1 + 4) (by omega) (.rparen :: rest))
              (loopM_rparen (f1 + 3) _ _))
            (loopA_rparen (f1 + 4) _ _)))
  | mul a b iha ihb =>
      intro hc f hf rest
      have h2 : freeVarsE a ++ freeVarsE b = [] := hc
      obtain ⟨hca, hcb⟩ := List.append_eq_nil.mp h2
      have hf' : 4 * (sizeE a + sizeE b + 1) ≤ f := hf
      have hpa := sizeE_pos a
      have hpb := sizeE_pos b
      obtain ⟨f1, rfl⟩ : ∃ g, f = g + 8 := ⟨f - 8, by omega⟩
      rw [show exprToks (.mul a b) ++ rest =
        .lparen :: (exprToks a ++ .star :: (exprToks b ++ .rparen :: rest))
        from by
          show .lparen :: (exprToks a ++ .star :: (exprToks b ++ [.rparen])) ++
            rest = _
          simp]
      exact atF_lparen (f := f1 + 7)
        (atA_of_atM (f := f1 + 6)
          (atM_of_atF (f := f1 + 5)
            (iha hca (f1 + 5) (by omega)
              (.star :: (exprToks b ++ .rparen :: rest)))
            (loopM_star (f := f1 + 4)
              (ihb hcb (f1 + 4) (by omega) (.rparen :: rest))
              (loopM_rparen (f1 + 3) _ _)))
          (loopA_rparen (f1 + 5) _ _))
  | div a b iha ihb =>
      intro hc f hf rest
      have h2 : freeVarsE a ++ freeVarsE b = [] := hc
      obtain ⟨hca, hcb⟩ := List.append_eq_nil.mp h2
      have hf' : 4 * (sizeE a + sizeE b + 1) ≤ f := hf
      have hpa := sizeE_pos a
      have hpb := sizeE_pos b
      obtain ⟨f1, rfl⟩ : ∃ g, f = g + 8 := ⟨f - 8, by omega⟩
      rw [show exprToks (.div a b) ++ rest =
        .lparen :: (exprToks a ++ .slash :: (exprToks b ++ .rparen :: rest))
        from by
          show .lparen :: (exprToks a ++ .slash :: (exprToks b ++ [.rparen])) ++
            rest = _
          simp]
      exact atF_lparen (f := f1 + 7)
        (atA_of_atM (f := f1 + 6)
          (atM_of_atF (f := f1 + 5)
            (iha hca (f1 + 5) (by omega)
              (.slash :: (exprToks b ++ .rparen :: rest)))
            (loopM_slash (f := f1 + 4)
              (ihb hcb (f1 + 4) (by omega) (.rparen :: rest))
              (loopM_rparen (f1 + 3) _ _)))
          (loopA_rparen (f1 + 5) _ _))

theorem parseE_expr_rparen (e : AExpr) (hc : freeVarsE e = []) (f : Nat)
    (hf : 4 * sizeE e + 2 ≤ f) (r : List Tok) :
    parseE f .atA (exprToks e ++ .rparen :: r) = .ok (e, .rparen :: r) := by
  have hp := sizeE_pos e
  obtain ⟨f1, rfl⟩ : ∃ g, f = g + 3 := ⟨f - 3, by omega⟩
  exact atA_of_atM (f := f1 + 2)
    (atM_of_atF (f := f1 + 1)
      (parseE_factor e hc (f1 + 1) (by omega) (.rparen :: r))
      (loopM_rparen f1 _ _))
    (loopA_rparen (f1 + 1) _ _)

theorem parseExprList_single (e : AExpr) (hc : freeVarsE e = []) (f : Nat)
    (hf : 4 * sizeE e + 4 ≤ f) (r : List Tok) :
    parseExprList f (exprToks e ++ .rparen :: r) = .ok ([e], .rparen :: r) := by
  obtain ⟨f1, rfl⟩ : ∃ g, f = g + 1 := ⟨f - 1, by omega⟩
  simp only [parseExprList]
  rw [parseE_expr_rparen e hc f1 (by omega), bindB_ok]

theorem parseOperand_q (i : Nat) (r : List Tok) :
    parseOperand (qOperandToks i ++ r) = .ok (.idx ("q") i, r) := rfl

theorem parseOperandList_toks : ∀ (tl : List Nat) (i : Nat) (f : Nat),
    tl.length + 1 ≤ f → ∀ (r : List Tok),
    parseOperandList f (operandListToks (i :: tl) ++ .semi :: r) =
      .ok ((i :: tl).map (fun j => AOperand.idx ("q") j), .semi :: r) := by
  intro tl
  induction tl with
  | nil =>
      intro i f hf r
      obtain ⟨f1, rfl⟩ : ∃ g, f = g + 1 := ⟨f - 1, by omega⟩
      simp only [parseOperandList]
      rw [show operandListToks [i] = qOperandToks i from rfl,
        parseOperand_q, bindB_ok]
      rfl
  | cons j tl2 ih =>
      intro i f hf r
      obtain ⟨f1, rfl⟩ : ∃ g, f = g + 1 := ⟨f - 1, by omega⟩
      simp only [parseOperandList]
      rw [show operandListToks (i :: j :: tl2) ++ .semi :: r =
        qOperandToks i ++ (.comma :: (operandListToks (j :: tl2) ++ .semi :: r))
        from by
          rw [show operandListToks (i :: j :: tl2) =
            qOperandToks i ++ .comma :: operandListToks (j :: tl2) from rfl]
          simp]
      rw [parseOperand_q, bindB_ok]
      show Bind.bind (parseOperandList f1
        (operandListToks (j :: tl2) ++ .semi :: r)) _ = _
      rw [ih j f1 (by simp at hf; omega), bindB_ok]
      rfl

/-- The parameter list of an optional parameter. -/
def pList : Option AExpr → List AExpr
  | some e => [e]
  | none => []

/-- The source statement a printed IR operation line denotes. -/
def opStmt : Operation → Stmt
  | .gate k cs t p =>
      .app ⟨mnemonicStr cs.length k, pList p,
        (cs ++ [t]).map (fun i => AOperand.idx ("q") i)⟩
  | .measure q c => .meas (.idx ("q") q) (.idx ("c") c)

/-- Whether an operation's control count fits the mnemonic prefixes. -/
def opCtrlOK : Operation → Bool
  | .gate _ cs _ _ => decide (cs.length ≤ 2)
  | .measure _ _ => true

/-- A statement-parser fuel bound sufficient for one printed operation. -/
def opFuel : Operation → Nat
  | .gate _ cs _ p =>
      (match p with | some e => 4 * sizeE e | none => 0) + cs.length + 8
  | .measure _ _ => 8

theorem parseApp_params {f : Nat} {mn : String} {toks r2 r : List Tok}
    {ps : List AExpr} {args : List AOperand}
    (h1 : parseExprList f toks = .ok (ps, .rparen :: r2))
    (h2 : parseOperandList f r2 = .ok (args, .semi :: r)) :
    parseApp (f + 1) (.ident mn :: .lparen :: toks) = .ok (⟨mn, ps, args⟩, r) := by
  simp only [parseApp]
  rw [h1, bindB_ok]
  show Bind.bind (parseOperandList f r2) (fun ar =>
    Bind.bind (expectSemi ar.2) (fun r4 =>
      Except.ok (GateApp.mk mn ps ar.1, r4))) =
    Except.ok ((GateApp.mk mn ps args : GateApp), r)
  rw [h2, bindB_ok]
  rfl

theorem parseApp_noparams {f : Nat} {mn nm2 : String} {tl2 r : List Tok}
    {args : List AOperand}
    (h2 : parseOperandList f (.ident nm2 :: tl2) = .ok (args, .semi :: r)) :
    parseApp (f + 1) (.ident mn :: .ident nm2 :: tl2) = .ok (⟨mn, [], args⟩, r) := by
  simp only [parseApp]
  show Bind.bind (parseOperandList f (.ident nm2 :: tl2)) (fun ar =>
    Bind.bind (expectSemi ar.2) (fun r4 =>
      Except.ok (GateApp.mk mn [] ar.1, r4))) =
    Except.ok ((GateApp.mk mn [] args : GateApp), r)
  rw [h2, bindB_ok]
  rfl

theorem operandListToks_expose (i : Nat) (tl : List Nat) (X : List Tok) :
    ∃ T, operandListToks (i :: tl) ++ X = .ident ("q") :: T := by
  cases tl with
  | nil =>
      exact ⟨.lbrack :: .number i 0 :: .rbrack :: X, by
        show qOperandToks i ++ X = _
        simp [qOperandToks]⟩
  | cons j tl2 =>
      refine ⟨.lbrack :: .number i 0 :: .rbrack ::
        (.comma :: (operandListToks (j :: tl2) ++ X)), ?_⟩
      show (qOperandToks i ++ .comma :: operandListToks (j :: tl2)) ++ X = _
      simp [qOperandToks]

theorem mnemonic_not_kw (nc : Nat) (k : GateKind) (hnc : nc ≤ 2) :
    mnemonicStr nc k ≠ "qreg" ∧ mnemonicStr nc k ≠ "creg" ∧
    mnemonicStr nc k ≠ "measure" ∧ mnemonicStr nc k ≠ "gate" := by
  have h3 : nc = 0 ∨ nc = 1 ∨ nc = 2 := by omega
  rcases h3 with rfl | rfl | rfl <;> cases k <;>
    refine ⟨?_, ?_, ?_, ?_⟩ <;> decide

theorem parseStmt_app {f : Nat} {mn : String} {toks2 : List Tok}
    (h1 : mn ≠ "qreg") (h2 : mn ≠ "creg") (h3 : mn ≠ "measure")
    (h4 : mn ≠ "gate") {g : GateApp} {r : List Tok}
    (happ : parseApp f (.ident mn :: toks2) = .ok (g, r)) :
    parseStmt (f + 1) (.ident mn :: toks2) = .ok (.app g, r) := by
  simp only [parseStmt]
  rw [if_neg h1, if_neg h2, if_neg h3, if_neg h4, happ, bindB_ok]

theorem parseStmt_qreg (f : Nat) (nm : String) (n : Nat) (r : List Tok) :
    parseStmt (f + 1) (.ident ("qreg") :: .ident nm :: .lbrack ::
      .number n 0 :: .rbrack :: .semi :: r) = .ok (.qreg nm n, r) := rfl

theorem parseStmt_creg (f : Nat) (nm : String) (n : Nat) (r : List Tok) :
    parseStmt (f + 1) (.ident ("creg") :: .ident nm :: .lbrack ::
      .number n 0 :: .rbrack :: .semi :: r) = .ok (.creg nm n, r) := rfl

theorem parseStmt_meas (f : Nat) (q c : Nat) (r : List Tok) :
    parseStmt (f + 1) (.ident ("measure") :: .ident ("q") :: .lbrack ::
      .number q 0 :: .rbrack :: .arrow :: .ident ("c") :: .lbrack ::
      .number c 0 :: .rbrack :: .semi :: r) =
      .ok (.meas (.idx ("q") q) (.idx ("c") c), r) := rfl

theorem parseStmt_opToks (op : Operation) (hctrl : opCtrlOK op = true)
    (hcl : opFreeVars op = []) (f : Nat) (hfu : opFuel op ≤ f)
    (r : List Tok) :
    parseStmt f (opToks op ++ r) = .ok (opStmt op, r) := by
  cases op with
  | gate k cs t p =>
      have hnc : cs.length ≤ 2 := by
        have : decide (cs.length ≤ 2) = true := hctrl
        exact of_decide_eq_true this
      have hkw := mnemonic_not_kw cs.length k hnc
      obtain ⟨i, tl, hl⟩ : ∃ i tl, cs ++ [t] = i :: tl := by
        cases cs with
        | nil => exact ⟨t, [], rfl⟩
        | cons c0 cs2 => exact ⟨c0, cs2 ++ [t], rfl⟩
      have hlen : tl.length = cs.length := by
        have h2 := congrArg List.length hl
        simp at h2
        omega
      cases p with
      | some e =>
          have hce : freeVarsE e = [] := hcl
          have hfu' : 4 * sizeE e + cs.length + 8 ≤ f := hfu
          obtain ⟨f1, rfl⟩ : ∃ g, f = g + 2 := ⟨f - 2, by omega⟩
          rw [show opToks (.gate k cs t (some e)) ++ r =
            .ident (mnemonicStr cs.length k) :: .lparen :: (exprToks e ++
              .rparen :: (operandListToks (cs ++ [t]) ++ .semi :: r)) from by
            show (.ident (mnemonicStr cs.length k) ::
              ((.lparen :: (exprToks e ++ [.rparen])) ++
                (operandListToks (cs ++ [t]) ++ [.semi]))) ++ r = _
            simp]
          rw [hl]
          rw [show opStmt (.gate k cs t (some e)) =
            .app ⟨mnemonicStr cs.length k, [e],
              (i :: tl).map (fun j => AOperand.idx ("q") j)⟩ from by
            rw [show opStmt (.gate k cs t (some e)) =
              .app ⟨mnemonicStr cs.length k, [e],
                (cs ++ [t]).map (fun j => AOperand.idx ("q") j)⟩ from rfl, hl]]
          exact parseStmt_app hkw.1 hkw.2.1 hkw.2.2.1 hkw.2.2.2
            (parseApp_params
              (parseExprList_single e hce f1 (by omega) _)
              (parseOperandList_toks tl i f1 (by omega) r))
      | none =>
          have hfu' : 0 + cs.length + 8 ≤ f := hfu
          obtain ⟨f1, rfl⟩ : ∃ g, f = g + 2 := ⟨f - 2, by omega⟩
          obtain ⟨T, hT⟩ := operandListToks_expose i tl (.semi :: r)
          have h2 : parseOperandList f1 (.ident ("q") :: T) =
              .ok ((i :: tl).map (fun j => AOperand.idx ("q") j),
                .semi :: r) := by
            rw [← hT]
            exact parseOperandList_toks tl i f1 (by omega) r
          rw [show opToks (.gate k cs t none) ++ r =
            .ident (mnemonicStr cs.length k) ::
              (operandListToks (cs ++ [t]) ++ .semi :: r) from by
            show (.ident (mnemonicStr cs.length k) ::
              ([] ++ (operandListToks (cs ++ [t]) ++ [.semi]))) ++ r = _
            simp]
          rw [hl]
          rw [show opStmt (.gate k cs t none) =
            .app ⟨mnemonicStr cs.length k, [],
              (i :: tl).map (fun j => AOperand.idx ("q") j)⟩ from by
            rw [show opStmt (.gate k cs t none) =
              .app ⟨mnemonicStr cs.length k, [],
                (cs ++ [t]).map (fun j => AOperand.idx ("q") j)⟩ from rfl, hl]]
          rw [hT]
          exact parseStmt_app hkw.1 hkw.2.1 hkw.2.2.1 hkw.2.2.2
            (parseApp_noparams h2)
  | measure q c3 =>
      have hfu' : 8 ≤ f := hfu
      obtain ⟨f1, rfl⟩ : ∃ g, f = g + 1 := ⟨f - 1, by omega⟩
      exact parseStmt_meas f1 q c3 r

theorem parseStmts_cons (f : Nat) (tk : Tok) (tks : List Tok) :
    parseStmts (f + 1) (tk :: tks) =
      Bind.bind (parseStmt f (tk :: tks)) (fun sr =>
        Bind.bind (parseStmts f sr.2) (fun sts =>
          Except.ok (sr.1 :: sts))) := rfl

theorem opToks_cons (op : Operation) : ∃ tk tks, opToks op = tk :: tks := by
  cases op with
  | gate k cs t p => exact ⟨_, _, rfl⟩
  | measure q c3 => exact ⟨_, _, rfl⟩

theorem parseStmts_ops : ∀ (ops : List Operation) (f : Nat),
    (∀ op ∈ ops, opCtrlOK op = true) →
    (∀ op ∈ ops, opFreeVars op = []) →
    (∀ op ∈ ops, opFuel op + ops.length ≤ f) →
    parseStmts f (opsToks ops) = .ok (ops.map opStmt) := by
  intro ops
  induction ops with
  | nil =>
      intro f _ _ _
      cases f <;> rfl
  | cons op ops2 ih =>
      intro f hctrl hcl hfu
      have hf8 : opFuel op + (ops2.length + 1) ≤ f := by
        have := hfu op (by simp)
        simpa using this
      have hop8 : 8 ≤ opFuel op := by
        cases op with
        | gate k cs t p => show _ ≤ _ + cs.length + 8; omega
        | measure q c3 => exact le_refl 8
      obtain ⟨f1, rfl⟩ : ∃ g, f = g + 1 := ⟨f - 1, by omega⟩
      obtain ⟨tk, tks, hop⟩ := opToks_cons op
      show parseStmts (f1 + 1) (opToks op ++ opsToks ops2) = _
      rw [show opToks op ++ opsToks ops2 = tk :: (tks ++ opsToks ops2) from by
        rw [hop]; rfl]
      rw [parseStmts_cons]
      rw [show tk :: (tks ++ opsToks ops2) = opToks op ++ opsToks ops2 from by
        rw [hop]; rfl]
      rw [parseStmt_opToks op (hctrl op (by simp)) (hcl op (by simp)) f1
        (by omega) (opsToks ops2), bindB_ok]
      show Bind.bind (parseStmts f1 (opsToks ops2)) (fun sts =>
        Except.ok (opStmt op :: sts)) = _
      rw [ih f1 (fun x hx => hctrl x (by simp [hx]))
        (fun x hx => hcl x (by simp [hx]))
        (fun x hx => by
          have := hfu x (by simp [hx])
          simp at this
          omega), bindB_ok]
      rfl

theorem sizeE_le_toksLen : ∀ (e : AExpr), sizeE e ≤ (exprToks e).length := by
  intro e
  induction e with
  | num m ex => exact le_refl 1
  | pi => exact le_refl 1
  | var s => exact le_refl 1
  | neg a iha =>
      show sizeE a + 1 ≤ (.lparen :: .minus :: (exprToks a ++ [.rparen])).length
      simp only [List.length_cons, List.length_append, List.length_singleton]
      omega
  | add a b iha ihb =>
      show sizeE a + sizeE b + 1 ≤
        (.lparen :: (exprToks a ++ .plus :: (exprToks b ++ [.rparen]))).length
      simp only [List.length_cons, List.length_append, List.length_singleton]
      omega
  | sub a b iha ihb =>
      show sizeE a + sizeE b + 1 ≤
        (.lparen :: (exprToks a ++ .minus :: (exprToks b ++ [.rparen]))).length
      simp only [List.length_cons, List.length_append, List.length_singleton]
      omega
  | mul a b iha ihb =>
      show sizeE a + sizeE b + 1 ≤
        (.lparen :: (exprToks a ++ .star :: (exprToks b ++ [.rparen]))).length
      simp only [List.length_cons, List.length_append, List.length_singleton]
      omega
  | div a b iha ihb =>
      show sizeE a + sizeE b + 1 ≤
        (.lparen :: (exprToks a ++ .slash :: (exprToks b ++ [.rparen]))).length
      simp only [List.length_cons, List.length_append, List.length_singleton]
      omega

theorem operandListToks_len : ∀ (l : List Nat),
    l.length ≤ (operandListToks l).length := by
  intro l
  induction l with
  | nil => exact le_refl 0
  | cons i tl ih =>
      cases tl with
      | nil => show 1 ≤ (qOperandToks i).length; simp [qOperandToks]
      | cons j tl2 =>
          show (j :: tl2).length + 1 ≤
            (qOperandToks i ++ .comma :: operandListToks (j :: tl2)).length
          simp only [List.length_append, List.length_cons, qOperandToks]
          simp at ih
          omega

theorem opToks_len_pos (op : Operation) : 1 ≤ (opToks op).length := by
  cases op with
  | gate k cs t p => show 1 ≤ (Tok.ident _ :: _).length; simp
  | measure q c3 => show 1 ≤ (11 : Nat); omega

theorem opFuel_le_toks (op : Operation) :
    opFuel op + 1 ≤ 8 * (opToks op).length := by
  cases op with
  | gate k cs t p =>
      have h1 := sizeE_le_toksLen
      have h2 : (cs ++ [t]).length ≤ (operandListToks (cs ++ [t])).length :=
        operandListToks_len (cs ++ [t])
      simp only [List.length_append, List.length_singleton] at h2
      cases p with
      | some e =>
          show (4 * sizeE e + cs.length + 8) + 1 ≤
            8 * (.ident (mnemonicStr cs.length k) ::
              ((.lparen :: (exprToks e ++ [.rparen])) ++
                (operandListToks (cs ++ [t]) ++ [.semi]))).length
          simp only [List.length_cons, List.length_append, List.length_singleton]
          have h3 := h1 e
          omega
      | none =>
          show (0 + cs.length + 8) + 1 ≤
            8 * (.ident (mnemonicStr cs.length k) ::
              ([] ++ (operandListToks (cs ++ [t]) ++ [.semi]))).length
          simp only [List.length_cons, List.length_append, List.length_singleton,
            List.length_nil]
          omega
  | measure q c3 =>
      show 8 + 1 ≤ 8 * (11 : Nat)
      omega

theorem ops_len_le_toks : ∀ (ops : List Operation),
    ops.length ≤ (opsToks ops).length := by
  intro ops
  induction ops with
  | nil => exact le_refl 0
  | cons op tl ih =>
      show tl.length + 1 ≤ (opToks op ++ opsToks tl).length
      simp only [List.length_append]
      have := opToks_len_pos op
      omega

theorem opsFuel_bound : ∀ (ops : List Operation), ∀ op ∈ ops,
    opFuel op + ops.length ≤ 8 * (opsToks ops).length := by
  intro ops
  induction ops with
  | nil => intro op h; cases h
  | cons op2 tl ih =>
      intro op hmem
      have hlen : (opToks op2 ++ opsToks tl).length =
          (opToks op2).length + (opsToks tl).length := List.length_append _ _
      show opFuel op + (tl.length + 1) ≤ 8 * (opToks op2 ++ opsToks tl).length
      rw [hlen]
      rcases List.mem_cons.mp hmem with rfl | h
      · have ha := opFuel_le_toks op
        have hb := ops_len_le_toks tl
        omega
      · have ha := ih op h
        have hb := opToks_len_pos op2
        omega

theorem parse_decls_ops (n : Nat) (ops : List Operation)
    (hctrl : ∀ op ∈ ops, opCtrlOK op = true)
    (hcl : ∀ op ∈ ops, opFreeVars op = [])
    (f : Nat) (hf : 8 * (opsToks ops).length + 3 ≤ f) :
    parseStmts f (.ident ("qreg") :: .ident ("q") :: .lbrack :: .number n 0 ::
      .rbrack :: .semi :: .ident ("creg") :: .ident ("c") :: .lbrack ::
      .number n 0 :: .rbrack :: .semi :: opsToks ops) =
      .ok (.qreg ("q") n :: .creg ("c") n :: ops.map opStmt) := by
  obtain ⟨fa, rfl⟩ : ∃ g, f = g + 1 := ⟨f - 1, by omega⟩
  rw [parseStmts_cons]
  obtain ⟨fb, rfl⟩ : ∃ g, fa = g + 1 := ⟨fa - 1, by omega⟩
  rw [parseStmt_qreg, bindB_ok]
  show Bind.bind (parseStmts (fb + 1) (.ident ("creg") :: .ident ("c") ::
    .lbrack :: .number n 0 :: .rbrack :: .semi :: opsToks ops))
    (fun sts => Except.ok (Stmt.qreg ("q") n :: sts)) = _
  rw [parseStmts_cons]
  obtain ⟨fc, rfl⟩ : ∃ g, fb = g + 1 := ⟨fb - 1, by omega⟩
  rw [parseStmt_creg, bindB_ok]
  show Bind.bind (Bind.bind (parseStmts (fc + 1) (opsToks ops))
    (fun sts => Except.ok (Stmt.creg ("c") n :: sts)))
    (fun sts => Except.ok (Stmt.qreg ("q") n :: sts)) = _
  rw [parseStmts_ops ops (fc + 1) hctrl hcl (fun op hop => by
    have h1 := opsFuel_bound ops op hop
    omega), bindB_ok, bindB_ok]

theorem mnemonicKind_inv (nc : Nat) (k : GateKind) (hnc : nc ≤ 2) :
    mnemonicKind (mnemonicStr nc k) = some (k, nc) := by
  have h3 : nc = 0 ∨ nc = 1 ∨ nc = 2 := by omega
  rcases h3 with rfl | rfl | rfl <;> cases k <;> decide

theorem resolve_idx (nm : String) (n i : Nat) (h : i < n) :
    resolveOperand [(nm, 0, n)] (.idx nm i) = .ok i := by
  show (match regLookup [(nm, 0, n)] nm with
    | some (off, sz) =>
        if i < sz then Except.ok (off + i)
        else Except.error QasmError.indexOutOfRange
    | none => (Except.error QasmError.unresolvedRegister :
        Except QasmError Nat)) = _
  rw [show regLookup [(nm, 0, n)] nm = some (0, n) from by
    show (if nm = nm then some ((0 : Nat), n) else regLookup [] nm) = _
    rw [if_pos rfl]]
  show (if i < n then Except.ok (0 + i)
    else (Except.error QasmError.indexOutOfRange : Except QasmError Nat)) = _
  rw [if_pos h, Nat.zero_add]

theorem resolve_idx_list (nm : String) (n : Nat) : ∀ (l : List Nat),
    (∀ i ∈ l, i < n) →
    mapME (resolveOperand [(nm, 0, n)])
      (l.map (fun i => AOperand.idx nm i)) = .ok l := by
  intro l
  induction l with
  | nil => intro _; rfl
  | cons i tl ih =>
      intro hall
      show Bind.bind (resolveOperand [(nm, 0, n)] (.idx nm i)) _ = _
      rw [resolve_idx nm n i (hall i (by simp)), bindB_ok]
      show Bind.bind (mapME (resolveOperand [(nm, 0, n)])
        (tl.map (fun j => AOperand.idx nm j))) _ = _
      rw [ih (fun j hj => hall j (by simp [hj])), bindB_ok]

theorem take_len_append {α : Type} (l1 l2 : List α) :
    (l1 ++ l2).take l1.length = l1 := by
  induction l1 with
  | nil => rfl
  | cons x tl ih => show x :: (tl ++ l2).take tl.length = _; rw [ih]

theorem getD_len_append {α : Type} (l1 : List α) (a d : α) :
    (l1 ++ [a]).getD l1.length d = a := by
  induction l1 with
  | nil => rfl
  | cons x tl ih => exact ih

theorem builtinOp_gate (n : Nat) (k : GateKind) (cs : List Nat) (t : Nat)
    (p : Option AExpr) (hwf : Operation.wfb n (.gate k cs t p) = true)
    (hzd : opHasZeroDiv (.gate k cs t p) = false) :
    builtinOp [(("q"), 0, n)] ⟨mnemonicStr cs.length k, pList p,
      (cs ++ [t]).map (fun i => AOperand.idx ("q") i)⟩ = .ok (.gate k cs t p) := by
  simp only [Operation.wfb, Bool.and_eq_true, decide_eq_true_eq,
    List.all_eq_true] at hwf
  obtain ⟨⟨⟨hnc, hcs⟩, ht⟩, hpk⟩ := hwf
  have hall : ∀ i ∈ cs ++ [t], i < n := by
    intro i hi
    rcases List.mem_append.mp hi with hi | hi
    · exact hcs i hi
    · rw [List.mem_singleton.mp hi]; exact ht
  simp only [builtinOp]
  rw [mnemonicKind_inv cs.length k hnc]
  show Bind.bind (mapME (resolveOperand [(("q"), 0, n)])
    ((cs ++ [t]).map (fun i => AOperand.idx ("q") i))) _ = _
  rw [resolve_idx_list ("q") n (cs ++ [t]) hall, bindB_ok]
  show (if (cs ++ [t]).length = cs.length + 1 then _ else _) = _
  rw [if_pos (by simp)]
  have hres : (Except.ok (Operation.gate k ((cs ++ [t]).take cs.length)
      ((cs ++ [t]).getD cs.length 0) (pList p).head?) :
        Except QasmError Operation) =
      Except.ok (Operation.gate k cs t p) := by
    rw [take_len_append, getD_len_append]
    cases p <;> rfl
  cases p with
  | some e =>
      have hk : kindHasParam k = true := by
        cases hkk : kindHasParam k
        · rw [hkk] at hpk; simp at hpk
        · rfl
      rw [if_pos (by rw [hk]; simp [pList])]
      have hze : hasZeroDivLit e = false := hzd
      rw [if_neg (by simp [pList, hze])]
      exact hres
  | none =>
      have hk : kindHasParam k = false := by
        cases hkk : kindHasParam k
        · rfl
        · rw [hkk] at hpk; simp at hpk
      rw [if_pos (by rw [hk]; simp [pList])]
      rw [if_neg (by simp [pList])]
      exact hres

theorem build_ops (n : Nat) : ∀ (ops acc : List Operation) (nq nc2 : Nat),
    (∀ op ∈ ops, Operation.wfb n op = true) →
    (∀ op ∈ ops, opHasZeroDiv op = false) →
    buildStmts ⟨[(("q"), 0, n)], nq, [(("c"), 0, n)], nc2, [], acc⟩
      (ops.map opStmt) = .ok ⟨acc ++ ops, nq, nc2⟩ := by
  intro ops
  induction ops with
  | nil =>
      intro acc nq nc2 _ _
      show Except.ok (⟨acc, nq, nc2⟩ : CircuitIR) = _
      rw [List.append_nil]
  | cons op ops2 ih =>
      intro acc nq nc2 hwf hzd
      cases op with
      | gate k cs t p =>
          have hwf1 : Operation.wfb n (.gate k cs t p) = true := hwf _ (by simp)
          have hzd1 : opHasZeroDiv (.gate k cs t p) = false := hzd _ (by simp)
          have hidx : (GateApp.mk (mnemonicStr cs.length k) (pList p)
              ((cs ++ [t]).map (fun i => AOperand.idx ("q") i))).args.all
                isIdxArg = true := by
            apply List.all_eq_true.mpr
            intro a ha
            obtain ⟨i, _, rfl⟩ := List.mem_map.mp ha
            rfl
          have hbc := broadcastApp_all_idx [(("q"), 0, n)] _ hidx
          show Except.bind (buildStep
            ⟨[(("q"), 0, n)], nq, [(("c"), 0, n)], nc2, [], acc⟩
            (.app ⟨mnemonicStr cs.length k, pList p,
              (cs ++ [t]).map (fun i => AOperand.idx ("q") i)⟩)) _ = _
          rw [buildStep_app ⟨[(("q"), 0, n)], nq, [(("c"), 0, n)], nc2, [], acc⟩
            _ hbc]
          have hdisp : dispatchApp
              ⟨[(("q"), 0, n)], nq, [(("c"), 0, n)], nc2, [], acc⟩
              ⟨mnemonicStr cs.length k, pList p,
                (cs ++ [t]).map (fun i => AOperand.idx ("q") i)⟩ =
              .ok [Operation.gate k cs t p] := by
            show Except.map (fun o => [o]) (builtinOp [(("q"), 0, n)]
              ⟨mnemonicStr cs.length k, pList p,
                (cs ++ [t]).map (fun i => AOperand.idx ("q") i)⟩) = _
            rw [builtinOp_gate n k cs t p hwf1 hzd1]
            rfl
          rw [hdisp]
          show Except.bind (Except.ok
            (⟨[(("q"), 0, n)], nq, [(("c"), 0, n)], nc2, [],
              acc ++ [Operation.gate k cs t p]⟩ : BState)) _ = _
          rw [bind_ok]
          show buildStmts ⟨[(("q"), 0, n)], nq, [(("c"), 0, n)], nc2, [],
            acc ++ [Operation.gate k cs t p]⟩ (ops2.map opStmt) = _
          rw [ih (acc ++ [Operation.gate k cs t p]) nq nc2
            (fun x hx => hwf x (by simp [hx])) (fun x hx => hzd x (by simp [hx]))]
          rw [List.append_assoc]
          rfl
      | measure q c3 =>
          have hwf1 : Operation.wfb n (.measure q c3) = true := hwf _ (by simp)
          have hlt : q < n ∧ c3 < n := by
            simp only [Operation.wfb, Bool.and_eq_true, decide_eq_true_eq] at hwf1
            exact hwf1
          show Except.bind (buildStep
            ⟨[(("q"), 0, n)], nq, [(("c"), 0, n)], nc2, [], acc⟩
            (.meas (.idx ("q") q) (.idx ("c") c3))) _ = _
          have hstep : buildStep
              ⟨[(("q"), 0, n)], nq, [(("c"), 0, n)], nc2, [], acc⟩
              (.meas (.idx ("q") q) (.idx ("c") c3)) =
              .ok ⟨[(("q"), 0, n)], nq, [(("c"), 0, n)], nc2, [],
                acc ++ [Operation.measure q c3]⟩ := by
            simp only [buildStep]
            rw [show broadcastMeas [(("q"), 0, n)] [(("c"), 0, n)]
              (AOperand.idx ("q") q) (AOperand.idx ("c") c3) =
              .ok [(AOperand.idx ("q") q, AOperand.idx ("c") c3)] from rfl]
            rw [bindB_ok]
            simp only [mapME]
            rw [resolve_idx ("q") n q hlt.1, bindB_ok,
              resolve_idx ("c") n c3 hlt.2, bindB_ok]
            rfl
          rw [hstep, bind_ok]
          show buildStmts ⟨[(("q"), 0, n)], nq, [(("c"), 0, n)], nc2, [],
            acc ++ [Operation.measure q c3]⟩ (ops2.map opStmt) = _
          rw [ih (acc ++ [Operation.measure q c3]) nq nc2
            (fun x hx => hwf x (by simp [hx])) (fun x hx => hzd x (by simp [hx]))]
          rw [List.append_assoc]
          rfl

theorem wfb_ctrlOK {n : Nat} {op : Operation}
    (h : Operation.wfb n op = true) : opCtrlOK op = true := by
  cases op with
  | gate k cs t p =>
      simp only [Operation.wfb, Bool.and_eq_true] at h
      exact h.1.1.1
  | measure q c3 => rfl

theorem import_program (n : Nat) (ops : List Operation)
    (hwf : ∀ op ∈ ops, Operation.wfb n op = true)
    (hcl : ∀ op ∈ ops, opFreeVars op = [])
    (hzd : ∀ op ∈ ops, opHasZeroDiv op = false) :
    import_open_qasm (String.mk (programChars n ops)) true =
      .ok ⟨ops, n, n⟩ := by
  have hctrl2 : ∀ op ∈ ops, opCtrlOK op = true :=
    fun op hop => wfb_ctrlOK (hwf op hop)
  show Except.bind (lexChars (programChars n ops)) _ = _
  rw [lex_program n ops hcl, bind_ok]
  show Except.bind (stripHeader true (programToks n ops)) _ = _
  rw [show stripHeader true (programToks n ops) =
    .ok (.ident ("include") :: .str ("qelib1.inc") :: .semi ::
      .ident ("qreg") :: .ident ("q") :: .lbrack :: .number n 0 ::
      .rbrack :: .semi :: .ident ("creg") :: .ident ("c") :: .lbrack ::
      .number n 0 :: .rbrack :: .semi :: opsToks ops) from by
    show stripHeader true (headerToks n ++ opsToks ops) = _
    rfl]
  rw [bind_ok]
  have hps := parse_decls_ops n ops hctrl2 hcl
    (8 * ((.ident ("qreg") :: .ident ("q") :: .lbrack :: .number n 0 ::
      .rbrack :: .semi :: .ident ("creg") :: .ident ("c") :: .lbrack ::
      .number n 0 :: .rbrack :: .semi :: opsToks ops : List Tok)).length + 64)
    (by simp only [List.length_cons]; omega)
  show Except.bind (parseStmts
    (8 * ((.ident ("qreg") :: .ident ("q") :: .lbrack :: .number n 0 ::
      .rbrack :: .semi :: .ident ("creg") :: .ident ("c") :: .lbrack ::
      .number n 0 :: .rbrack :: .semi :: opsToks ops : List Tok)).length + 64)
    (.ident ("qreg") :: .ident ("q") :: .lbrack :: .number n 0 ::
      .rbrack :: .semi :: .ident ("creg") :: .ident ("c") :: .lbrack ::
      .number n 0 :: .rbrack :: .semi :: opsToks ops)) _ = _
  rw [hps, bind_ok]
  show buildStmts initState (Stmt.qreg ("q") n :: Stmt.creg ("c") n ::
    ops.map opStmt) = Except.ok ⟨ops, n, n⟩
  show Except.bind (buildStep initState (.qreg ("q") n)) (fun st2 =>
    buildStmts st2 (Stmt.creg ("c") n :: ops.map opStmt)) =
    Except.ok ⟨ops, n, n⟩
  rw [show buildStep initState (.qreg ("q") n) =
    .ok ⟨[(("q"), 0, n)], 0 + n, [], 0, [], []⟩ from rfl, bind_ok]
  show Except.bind (buildStep ⟨[(("q"), 0, n)], 0 + n, [], 0, [], []⟩
    (.creg ("c") n)) (fun st2 => buildStmts st2 (ops.map opStmt)) =
    Except.ok ⟨ops, n, n⟩
  rw [show buildStep ⟨[(("q"), 0, n)], 0 + n, [], 0, [], []⟩ (.creg ("c") n) =
    .ok ⟨[(("q"), 0, n)], 0 + n, [(("c"), 0, n)], 0 + n, [], []⟩ from rfl,
    bind_ok]
  rw [build_ops n ops [] (0 + n) (0 + n) hwf hzd]
  rw [Nat.zero_add]
  rfl

theorem substE_nil : ∀ (e : AExpr), substE [] e = e := by
  intro e
  induction e with
  | num m ex => rfl
  | pi => rfl
  | var s => rfl
  | neg a iha => show AExpr.neg (substE [] a) = _; rw [iha]
  | add a b iha ihb => show AExpr.add (substE [] a) (substE [] b) = _; rw [iha, ihb]
  | sub a b iha ihb => show AExpr.sub (substE [] a) (substE [] b) = _; rw [iha, ihb]
  | mul a b iha ihb => show AExpr.mul (substE [] a) (substE [] b) = _; rw [iha, ihb]
  | div a b iha ihb => show AExpr.div (substE [] a) (substE [] b) = _; rw [iha, ihb]

theorem substOp_nil : ∀ (op : Operation), substOp [] op = op := by
  intro op
  cases op with
  | gate k cs t p =>
      show Operation.gate k cs t (p.map (substE [])) = _
      cases p with
      | none => rfl
      | some e => show Operation.gate k cs t (some (substE [] e)) = _
                  rw [substE_nil]
  | measure q c3 => rfl

theorem map_substOp_nil (ops : List Operation) : ops.map (substOp []) = ops := by
  induction ops with
  | nil => rfl
  | cons op rest ih => show substOp [] op :: rest.map (substOp []) = _
                       rw [substOp_nil, ih]

/-- C1: round-trip — for a well-formed circuit IR whose parameters are
closed expressions free of zero-literal division, exporting to OpenQASM
text and importing that text back yields a circuit with the same gate
sequence (kinds, controls-then-target global indices, parameters, and
measurements, in order) and the same qubit count; the single flattened
`q` register replaces the original register names. -/
theorem claim_c1_round_trip (c : CircuitIR) (hwf : c.wfb = true)
    (hcl : circuitFreeVars c.ops = [])
    (hzd : c.ops.all (fun op => !(opHasZeroDiv op)) = true) :
    ∃ s : String, export_open_qasm c [] false = .ok s ∧
      ∃ c2 : CircuitIR, import_open_qasm s true = .ok c2 ∧
        c2.ops = c.ops ∧ c2.n_qubits = c.n_qubits := by
  have hwf2 : ∀ op ∈ c.ops, Operation.wfb c.n_qubits op = true :=
    List.all_eq_true.mp hwf
  have hzd2 : ∀ op ∈ c.ops, opHasZeroDiv op = false := by
    intro op hop
    have h1 := List.all_eq_true.mp hzd op hop
    simpa using h1
  have hcl2 : ∀ op ∈ c.ops, opFreeVars op = [] := by
    intro op hop
    rw [List.eq_nil_iff_forall_not_mem]
    intro v hv
    have h1 := mem_circuitFreeVars hop hv
    rw [hcl] at h1
    exact List.not_mem_nil v h1
  have hzdany : c.ops.any opHasZeroDiv = false := by
    cases hany : c.ops.any opHasZeroDiv
    · rfl
    · obtain ⟨x, hx, hpx⟩ := List.any_eq_true.mp hany
      rw [hzd2 x hx] at hpx
      simp at hpx
  have hexp : export_open_qasm c [] false =
      .ok (String.mk (programChars c.n_qubits c.ops)) := by
    apply (export_ok_iff c [] false _).mpr
    refine ⟨?_, ?_, ?_⟩
    · show (circuitFreeVars c.ops).filter (fun v => (bindLookup [] v).isNone) = []
      rw [hcl]
      rfl
    · show (c.ops.map (substOp [])).any opHasZeroDiv = false
      rw [map_substOp_nil]
      exact hzdany
    · show String.mk (programChars c.n_qubits c.ops) =
        String.mk (programChars c.n_qubits (c.ops.map (substOp [])))
      rw [map_substOp_nil]
  have himp := import_program c.n_qubits c.ops hwf2 hcl2 hzd2
  exact ⟨_, hexp, ⟨c.ops, c.n_qubits, c.n_qubits⟩, himp, rfl, rfl⟩

/-- A concrete well-formed circuit exercising plain, parameterized,
singly and doubly controlled gates and a measurement. -/
def c1circ : CircuitIR :=
  ⟨[.gate .H [] 0 none,
    .gate .Rx [1] 0 (some (.div .pi (.num 2 0))),
    .gate .X [0, 1] 2 none,
    .measure 2 0], 3, 1⟩

/-- C1 witness: the round-trip theorem instantiated at a concrete
circuit, with its hypotheses discharged by computation. -/
theorem claim_c1_round_trip_witness :
    (c1circ.wfb = true ∧ circuitFreeVars c1circ.ops = [] ∧
      c1circ.ops.all (fun op => !(opHasZeroDiv op)) = true) ∧
    (∃ s : String, export_open_qasm c1circ [] false = .ok s ∧
      ∃ c2 : CircuitIR, import_open_qasm s true = .ok c2 ∧
        c2.ops = c1circ.ops ∧ c2.n_qubits = c1circ.n_qubits) :=
  ⟨⟨by decide, by decide, by decide⟩,
    claim_c1_round_trip c1circ (by decide) (by decide) (by decide)⟩
